import Mathlib

/-!
# csv2json: a verification development

A shallow embedding of `csv2json.go` (package `main`) and theorems about it.

Conventions of the embedding.

* A Go `string` is a Lean `String` (valid UTF-8 text); the bytes the program
  inspects (`.`, `/`, `-`, `=`, JSON punctuation) are ASCII, so scanning
  characters agrees with scanning bytes.
* A Go `error` is an `Option String`: `none` is `nil`, `some msg` an error
  whose text is `msg`.
* A `[]*student` batch is the list of the records pointed to; the pointers
  are the ones the decoder allocates, one per row.  The aggregate of
  `writeJsonFile` distinguishes the nil slice (`none`) from a non-nil one,
  because the JSON encoder does.
* Effects (file system, standard streams, channel operations, process exit)
  are recorded as a trace of `Event`s; the answers of the environment (stat
  outcome, open outcome, decoder result, whether a write to standard error
  succeeds) are inputs of the functions.
* Library behaviour is that of Go 1.15 to 1.21 (`flag`, `path/filepath` on
  Unix, `encoding/json`).
-/

namespace Csv2Json

/-! ## Data model -/

/-- Command-line arguments (`type args struct`). -/
structure args where
  filePaths : List String
  pretty : Bool
  deriving DecidableEq, Repr

/-- One decoded CSV row (`type student struct`). -/
structure student where
  No : Int
  Name : String
  Score : Int
  Hobby : String
  deriving DecidableEq, Repr

/-- Observable effects of the program, in program order.  `flagError` is the
error line the `flag` package prints on standard error, `usage` the call of
`flag.Usage`. -/
inductive Event where
  | stat (path : String)
  | openFile (path : String)
  | unmarshalFile (path : String)
  | closeFile (path : String)
  | send (batch : List student)
  | wgDone
  | wgAdd (n : Nat)
  | goProcessCsvFile (path : String)
  | goWriteJsonFile (jsonPath : String) (pretty : Bool)
  | stdout (text : String)
  | stderr (text : String)
  | flagError
  | usage
  | writeFile (path : String) (bytes : String) (perm : Nat)
  | doneSend (v : Bool)
  deriving DecidableEq, Repr

/-- How a call ends: it returns a value, or the process exits with a status. -/
inductive Flow (α : Type) where
  | ret (a : α)
  | exit (code : Nat)
  deriving DecidableEq, Repr

/-- Outcome of `os.Stat` on a path. -/
inductive StatOutcome where
  | success
  | notExistError
  | otherError
  deriving DecidableEq, Repr

/-- The test `err != nil` on the error returned by `os.Stat`. -/
def StatOutcome.errNonNil : StatOutcome → Bool
  | .success => false
  | .notExistError => true
  | .otherError => true

/-- The test `os.IsNotExist(err)` on the error returned by `os.Stat`. -/
def StatOutcome.isNotExist : StatOutcome → Bool
  | .success => false
  | .notExistError => true
  | .otherError => false

/-! ## `filepath.Ext` and `checkIfFileValid` -/

/-- The loop of `filepath.Ext`: walk from the last character towards the
first, stop at a path separator, return the suffix at the first dot met.
The first argument is the part of the path not yet visited, reversed; the
second is the suffix already visited. -/
def extLoop : List Char → List Char → List Char
  | [], _ => []
  | c :: before, suffix =>
    if c = '/' then []
    else if c = '.' then c :: suffix
    else extLoop before (c :: suffix)

/-- The function `filepath.Ext`. -/
def Ext (path : String) : String :=
  String.mk (extLoop path.data.reverse [])

/-- The function `checkIfFileValid`; the stat outcome of the path is an input, and the
trace records whether `os.Stat` was called. -/
def checkIfFileValid (stat : String → StatOutcome) (filePath : String) :
    List Event × (Bool × Option String) :=
  if Ext filePath ≠ ".csv" then
    ([], (false, some ("file " ++ filePath ++ " is not CSV")))
  else
    let err := stat filePath
    if err.errNonNil && err.isNotExist then
      ([Event.stat filePath], (false, some ("file " ++ filePath ++ " does not exist")))
    else
      ([Event.stat filePath], (true, none))

/-! ## `check` -/

/-- The function `check`; `stderrOk` says whether the `Fprintf` to standard error
succeeds. -/
def check (err : Option String) (stderrOk : Bool) : List Event × Flow Unit :=
  match err with
  | none => ([], Flow.ret ())
  | some msg =>
    if !stderrOk then
      ([Event.stderr ("error: " ++ msg ++ "\n")], Flow.ret ())
    else
      ([Event.stderr ("error: " ++ msg ++ "\n")], Flow.exit 1)

/-! ## `getArgs` and the `flag` package -/

/-- The function `strconv.ParseBool`, as used by a boolean flag. -/
def parseBool (s : String) : Option Bool :=
  if s = "1" ∨ s = "t" ∨ s = "T" ∨ s = "TRUE" ∨ s = "true" ∨ s = "True" then some true
  else if s = "0" ∨ s = "f" ∨ s = "F" ∨ s = "FALSE" ∨ s = "false" ∨ s = "False" then some false
  else none

/-- The scan of `splitValue` from the second character on; `acc` holds the
characters of the name seen so far, reversed. -/
def splitValueLoop : List Char → List Char → List Char × Option (List Char)
  | [], acc => (acc.reverse, none)
  | d :: ds, acc => if d = '=' then (acc.reverse, some ds) else splitValueLoop ds (d :: acc)

/-- Split a flag name at the first `=` that is not its first character
(the loop `for i := 1; i < len(name); i++` of `parseOne`): the name, and the
value when there is one. -/
def splitValue : List Char → List Char × Option (List Char)
  | [] => ([], none)
  | c :: rest => splitValueLoop rest [c]

/-- Result of `FlagSet.parseOne` on the flag set whose only flag is the
boolean `pretty`. -/
inductive ParseOne where
  | stop (rest : List String)
  | seen (pretty : Bool) (rest : List String)
  | help
  | fail
  deriving DecidableEq, Repr

/-- The method `FlagSet.parseOne`, for the flag set whose only flag is the boolean `pretty`. -/
def parseOne (fargs : List String) : ParseOne :=
  match fargs with
  | [] => ParseOne.stop []
  | s :: rest =>
    match s.data with
    | [] => ParseOne.stop fargs
    | [_] => ParseOne.stop fargs
    | c0 :: c1 :: more =>
      if c0 ≠ '-' then ParseOne.stop fargs
      else if c1 = '-' ∧ more = [] then ParseOne.stop rest
      else
        let name := if c1 = '-' then more else c1 :: more
        match name with
        | [] => ParseOne.fail
        | n0 :: _ =>
          if n0 = '-' ∨ n0 = '=' then ParseOne.fail
          else
            let nv := splitValue name
            let flagName := String.mk nv.1
            if flagName ≠ "pretty" then
              if flagName = "help" ∨ flagName = "h" then ParseOne.help
              else ParseOne.fail
            else
              match nv.2 with
              | some value =>
                match parseBool (String.mk value) with
                | some b => ParseOne.seen b rest
                | none => ParseOne.fail
              | none => ParseOne.seen true rest

/-- The loop of `FlagSet.Parse` under `flag.ExitOnError`: the value of the
flag and the remaining (positional) arguments, or the exit of the process
(status 0 after `-h`/`-help`, status 2 after a parse error). -/
def flagParse : List String → Bool → List Event × Flow (Bool × List String)
  | [], pretty => ([], Flow.ret (pretty, []))
  | s :: rest, pretty =>
    match parseOne (s :: rest) with
    | ParseOne.stop r => ([], Flow.ret (pretty, r))
    | ParseOne.seen b _ => flagParse rest b
    | ParseOne.help => ([Event.usage], Flow.exit 0)
    | ParseOne.fail => ([Event.flagError, Event.usage], Flow.exit 2)

/-- The function `getArgs`; `osArgs` is `os.Args` (program name first). -/
def getArgs (osArgs : List String) : List Event × Flow (args × Option String) :=
  if osArgs.length < 2 then
    ([], Flow.ret ({ filePaths := [], pretty := false }, some "A filepath argument is required"))
  else
    match flagParse (osArgs.drop 1) false with
    | (tr, Flow.exit code) => (tr, Flow.exit code)
    | (tr, Flow.ret (pretty, filePaths)) =>
      (tr, Flow.ret ({ filePaths := filePaths, pretty := pretty }, none))

/-! ## `encoding/json`: `Marshal` and `MarshalIndent` on `[]*student` -/

/-- The table `hex` of `encoding/json`. -/
def hexDigit (n : Nat) : Char :=
  "0123456789abcdef".data.getD n '0'

/-- The table `htmlSafeSet` of `encoding/json`, on an ASCII character: every
character from the space on, except the double quote, the backslash and the
three characters escaped for HTML. -/
def htmlSafe (c : Char) : Bool :=
  decide (32 ≤ c.toNat) && c != '"' && c != '\\' && c != '<' && c != '>' && c != '&'

/-- What `appendString` (with `escapeHTML`) writes for one character of a
valid UTF-8 string. -/
def escapeChar (c : Char) : List Char :=
  if c.toNat < 128 then
    if htmlSafe c then [c]
    else if c = '\\' ∨ c = '"' then ['\\', c]
    else if c = '\n' then ['\\', 'n']
    else if c = '\r' then ['\\', 'r']
    else if c = '\t' then ['\\', 't']
    else ['\\', 'u', '0', '0', hexDigit (c.toNat / 16), hexDigit (c.toNat % 16)]
  else if c.toNat = 8232 then ['\\', 'u', '2', '0', '2', '8']
  else if c.toNat = 8233 then ['\\', 'u', '2', '0', '2', '9']
  else [c]

/-- The body of a JSON string literal: the escaped characters, without the quotes. -/
def escapeBody : List Char → List Char
  | [] => []
  | c :: cs => escapeChar c ++ escapeBody cs

/-- The function `appendString`: a quoted, escaped JSON string literal. -/
def encodeString (s : String) : List Char :=
  '"' :: (escapeBody s.data ++ ['"'])

/-- One decimal digit. -/
def digitChar (d : Nat) : Char :=
  Char.ofNat (48 + d)

/-- The digit loop of `strconv.FormatInt` in base 10: digits are produced from the
least significant one and put in front of the ones already produced. -/
def digitsLoop : Nat → Nat → List Char → List Char
  | 0, _, acc => acc
  | fuel + 1, n, acc =>
    if n < 10 then digitChar n :: acc
    else digitsLoop fuel (n / 10) (digitChar (n % 10) :: acc)

/-- Decimal digits of a natural number. -/
def natDigits (n : Nat) : List Char :=
  digitsLoop (n + 1) n []

/-- The function `strconv.AppendInt(_, v, 10)`. -/
def encodeInt (v : Int) : List Char :=
  if v < 0 then '-' :: natDigits v.natAbs else natDigits v.natAbs

/-- The struct encoder on a `student`: the fields in declaration order under
their `json` tags. -/
def encodeStudent (r : student) : List Char :=
  "\x7b\"no\":".data ++ encodeInt r.No
    ++ ",\"name\":".data ++ encodeString r.Name
    ++ ",\"score\":".data ++ encodeInt r.Score
    ++ ",\"hobby\":".data ++ encodeString r.Hobby
    ++ "\x7d".data

/-- The element loop of the slice encoder: a comma before every element but the first. -/
def encodeElements : List student → Bool → List Char
  | [], _ => []
  | r :: rs, first => (if first then [] else [',']) ++ encodeStudent r ++ encodeElements rs false

/-- The function `json.Marshal` on a `[]*student`: a nil slice is `null`. -/
def marshalChars : Option (List student) → List Char
  | none => "null".data
  | some rs => '[' :: (encodeElements rs true ++ [']'])

/-- The function `json.Marshal` on the aggregate; it cannot fail on this type. -/
def Marshal (record : Option (List student)) : String :=
  String.mk (marshalChars record)

/-- JSON insignificant whitespace, as the scanner of `encoding/json` sees it. -/
def isSpace (c : Char) : Bool :=
  c = ' ' || c = '\t' || c = '\r' || c = '\n'

/-- The function `appendNewline` with an empty line start and the indent unit `unit`. -/
def appendNewline (unit : List Char) (depth : Nat) : List Char :=
  '\n' :: (List.replicate depth unit).flatten

/-- The loop of `json.Indent` (`appendIndent`) on valid JSON.  The scanner is
kept as the two bits that decide its answer on valid input: whether the
position is inside a string literal, and whether the previous character of
the literal was an unconsumed backslash.  Inside a literal every character
is copied; outside, whitespace is skipped, an opening bracket delays the
indent, a comma is followed by a new line, a colon by a space, and a closing
bracket is put on a new line unless the bracket pair is empty. -/
def indentLoop (unit : List Char) : Bool → Nat → Bool → Bool → List Char → List Char
  | _, _, _, _, [] => []
  | needIndent, depth, true, esc, c :: cs =>
    if esc then c :: indentLoop unit needIndent depth true false cs
    else if c = '\\' then c :: indentLoop unit needIndent depth true true cs
    else if c = '"' then c :: indentLoop unit needIndent depth false false cs
    else c :: indentLoop unit needIndent depth true false cs
  | needIndent, depth, false, _, c :: cs =>
    if isSpace c then indentLoop unit needIndent depth false false cs
    else if c = '}' ∨ c = ']' then
      if needIndent then c :: indentLoop unit false depth false false cs
      else appendNewline unit (depth - 1) ++ c :: indentLoop unit false (depth - 1) false false cs
    else
      let before := if needIndent then appendNewline unit (depth + 1) else []
      let depth1 := if needIndent then depth + 1 else depth
      if c = '{' ∨ c = '[' then before ++ c :: indentLoop unit true depth1 false false cs
      else if c = ',' then before ++ c :: (appendNewline unit depth1 ++ indentLoop unit false depth1 false false cs)
      else if c = ':' then before ++ c :: ' ' :: indentLoop unit false depth1 false false cs
      else if c = '"' then before ++ c :: indentLoop unit false depth1 true false cs
      else before ++ c :: indentLoop unit false depth1 false false cs

/-- The function `json.MarshalIndent(record, "", "    ")`: `Marshal`, then `Indent`. -/
def MarshalIndent (record : Option (List student)) : String :=
  String.mk (indentLoop "    ".data false 0 false false (marshalChars record))
/-! ## Reading JSON back (RFC 8259) -/

/-- A JSON value; numbers are the integers (a number with a fraction or an
exponent is not read). -/
inductive Json where
  | null
  | bool (b : Bool)
  | num (n : Int)
  | str (s : String)
  | arr (elems : List Json)
  | obj (members : List (String × Json))
  deriving Repr

/-- Drop leading insignificant whitespace. -/
def skipWs : List Char → List Char
  | [] => []
  | c :: cs => if isSpace c then skipWs cs else c :: cs

/-- Value of a hexadecimal digit. -/
def hexVal (c : Char) : Option Nat :=
  if 48 ≤ c.toNat ∧ c.toNat ≤ 57 then some (c.toNat - 48)
  else if 97 ≤ c.toNat ∧ c.toNat ≤ 102 then some (c.toNat - 87)
  else if 65 ≤ c.toNat ∧ c.toNat ≤ 70 then some (c.toNat - 55)
  else none

/-- Read one character of the body of a string literal: an unescaped
character (control characters are refused), or an escape sequence.  A
`\u` escape naming a surrogate is not read. -/
def readChar : List Char → Option (Char × List Char)
  | [] => none
  | c :: cs =>
    if c = '\\' then
      match cs with
      | [] => none
      | e :: rest =>
        if e = '"' ∨ e = '\\' ∨ e = '/' then some (e, rest)
        else if e = 'b' then some (Char.ofNat 8, rest)
        else if e = 'f' then some (Char.ofNat 12, rest)
        else if e = 'n' then some ('\n', rest)
        else if e = 'r' then some ('\r', rest)
        else if e = 't' then some ('\t', rest)
        else if e = 'u' then
          match rest with
          | h1 :: h2 :: h3 :: h4 :: rest4 =>
            match hexVal h1, hexVal h2, hexVal h3, hexVal h4 with
            | some x1, some x2, some x3, some x4 =>
              let v := ((x1 * 16 + x2) * 16 + x3) * 16 + x4
              if 55296 ≤ v ∧ v ≤ 57343 then none else some (Char.ofNat v, rest4)
            | _, _, _, _ => none
          | _ => none
        else none
    else if c.toNat < 32 then none
    else some (c, cs)

/-- Read the body of a string literal up to and including the closing quote. -/
def parseStringBody : Nat → List Char → List Char → Option (String × List Char)
  | 0, _, _ => none
  | fuel + 1, input, acc =>
    match input with
    | [] => none
    | c :: cs =>
      if c = '"' then some (String.mk acc.reverse, cs)
      else
        match readChar (c :: cs) with
        | none => none
        | some (ch, rest) => parseStringBody fuel rest (ch :: acc)

/-- Whether a character is a decimal digit. -/
def isDigit (c : Char) : Bool :=
  decide (48 ≤ c.toNat) && decide (c.toNat ≤ 57)

/-- The longest run of leading digits, and what follows it. -/
def spanDigits : List Char → List Char × List Char
  | [] => ([], [])
  | c :: cs =>
    if isDigit c then ((spanDigits cs).1.cons c, (spanDigits cs).2) else ([], c :: cs)

/-- The number a run of decimal digits denotes. -/
def digitsValue (ds : List Char) : Nat :=
  ds.foldl (fun a d => a * 10 + (d.toNat - 48)) 0

/-- Read an integer: an optional minus sign, then `0` or a digit run without a
leading zero; a fraction or an exponent after it is refused. -/
def parseNumber (input : List Char) : Option (Int × List Char) :=
  let neg : Bool := input.head? = some '-'
  let body := if neg then input.drop 1 else input
  let ds := (spanDigits body).1
  let rest := (spanDigits body).2
  if ds = [] then none
  else if 1 < ds.length ∧ ds.head? = some '0' then none
  else if rest.head? = some '.' ∨ rest.head? = some 'e' ∨ rest.head? = some 'E' then none
  else some (if neg then - (digitsValue ds : Int) else (digitsValue ds : Int), rest)

/-- Where a number may end: the next character, if any, is no digit and starts
no fraction or exponent. -/
def numberEnd : List Char → Bool
  | [] => true
  | c :: _ => !isDigit c && c != '.' && c != 'e' && c != 'E'

/-- Whether every character of a text is insignificant whitespace. -/
def allSpace (ws : List Char) : Bool :=
  ws.all isSpace

/-- Run the string-literal state over a text that lies inside a literal:
the flag is a pending backslash; the answer is the flag at the end, or
`none` when an unescaped quote closes the literal inside the text. -/
def litState : Bool → List Char → Option Bool
  | esc, [] => some esc
  | true, _ :: cs => litState false cs
  | false, c :: cs =>
    if c = '\\' then litState true cs
    else if c = '"' then none
    else litState false cs

/-- A character that is neither whitespace, nor a quote, nor JSON punctuation. -/
def plainChar (c : Char) : Bool :=
  !isSpace c && c != '"' && c != ',' && c != ':' && c != '[' && c != ']'
    && c != '\x7b' && c != '\x7d'

/-- Drop the characters of a keyword from the front of the input. -/
def dropLit : List Char → List Char → Option (List Char)
  | [], input => some input
  | _ :: _, [] => none
  | l :: ls, c :: cs => if l = c then dropLit ls cs else none

mutual
/-- Read one JSON value and return what follows it. -/
def parseValue : Nat → List Char → Option (Json × List Char)
  | 0, _ => none
  | fuel + 1, input =>
    match skipWs input with
    | [] => none
    | c :: cs =>
      if c = '"' then
        match parseStringBody (cs.length + 1) cs [] with
        | some (s, rest) => some (Json.str s, rest)
        | none => none
      else if c = '[' then
        match skipWs cs with
        | [] => none
        | d :: ds => if d = ']' then some (Json.arr [], ds) else parseElements fuel (d :: ds) []
      else if c = '{' then
        match skipWs cs with
        | [] => none
        | d :: ds => if d = '}' then some (Json.obj [], ds) else parseMembers fuel (d :: ds) []
      else if c = 'n' then
        match dropLit "ull".data cs with
        | some rest => some (Json.null, rest)
        | none => none
      else if c = 't' then
        match dropLit "rue".data cs with
        | some rest => some (Json.bool true, rest)
        | none => none
      else if c = 'f' then
        match dropLit "alse".data cs with
        | some rest => some (Json.bool false, rest)
        | none => none
      else
        match parseNumber (c :: cs) with
        | some (n, rest) => some (Json.num n, rest)
        | none => none
/-- Read the elements of an array after its opening bracket. -/
def parseElements : Nat → List Char → List Json → Option (Json × List Char)
  | 0, _, _ => none
  | fuel + 1, input, acc =>
    match parseValue fuel input with
    | none => none
    | some (v, rest) =>
      match skipWs rest with
      | [] => none
      | d :: ds =>
        if d = ',' then parseElements fuel ds (v :: acc)
        else if d = ']' then some (Json.arr (v :: acc).reverse, ds)
        else none
/-- Read the members of an object after its opening brace. -/
def parseMembers : Nat → List Char → List (String × Json) → Option (Json × List Char)
  | 0, _, _ => none
  | fuel + 1, input, acc =>
    match skipWs input with
    | [] => none
    | q :: cs =>
      if q = '"' then
        match parseStringBody (cs.length + 1) cs [] with
        | none => none
        | some (key, rest) =>
          match skipWs rest with
          | [] => none
          | col :: afterColon =>
            if col = ':' then
              match parseValue fuel afterColon with
              | none => none
              | some (v, rest2) =>
                match skipWs rest2 with
                | [] => none
                | d :: ds =>
                  if d = ',' then parseMembers fuel ds ((key, v) :: acc)
                  else if d = '}' then some (Json.obj ((key, v) :: acc).reverse, ds)
                  else none
            else none
      else none
end

/-- Read a whole text as one JSON value; nothing but whitespace may follow it. -/
def parseJson (s : String) : Option Json :=
  match parseValue (s.data.length + 1) s.data with
  | some (v, rest) => if skipWs rest = [] then some v else none
  | none => none

/-- Remove the whitespace that stands outside string literals.  The two
flags are the position inside a literal and a pending backslash. -/
def stripSpace : Bool → Bool → List Char → List Char
  | _, _, [] => []
  | true, esc, c :: cs =>
    if esc then c :: stripSpace true false cs
    else if c = '\\' then c :: stripSpace true true cs
    else if c = '"' then c :: stripSpace false false cs
    else c :: stripSpace true false cs
  | false, _, c :: cs =>
    if isSpace c then stripSpace false false cs
    else if c = '"' then c :: stripSpace true false cs
    else c :: stripSpace false false cs

/-- The JSON value of one record: an object with the keys `no`, `name`,
`score`, `hobby`, in that order. -/
def studentJson (r : student) : Json :=
  Json.obj [("no", Json.num r.No), ("name", Json.str r.Name),
    ("score", Json.num r.Score), ("hobby", Json.str r.Hobby)]

/-- The JSON value of the aggregate: `null` for the nil slice, else the array
of the records' objects. -/
def aggregateJson : Option (List student) → Json
  | none => Json.null
  | some rs => Json.arr (rs.map studentJson)

/-! ## Layout of the output, as the specification words it -/

/-- A new line followed by four spaces per nesting level. -/
def lineBreak (level : Nat) : List Char :=
  '\n' :: List.replicate (4 * level) ' '

/-- One record as an object text: `memberWs` stands before each key, `sep`
after each colon, `closeWs` before the closing brace. -/
def layoutStudent (memberWs sep closeWs : List Char) (r : student) : List Char :=
  '\x7b' :: (memberWs ++ ("\"no\":".data ++ (sep ++ (encodeInt r.No
    ++ ',' :: (memberWs ++ ("\"name\":".data ++ (sep ++ (encodeString r.Name
    ++ ',' :: (memberWs ++ ("\"score\":".data ++ (sep ++ (encodeInt r.Score
    ++ ',' :: (memberWs ++ ("\"hobby\":".data ++ (sep ++ (encodeString r.Hobby
    ++ (closeWs ++ ['\x7d'])))))))))))))))))

/-- The elements after the first one, each behind a comma and `elemWs`. -/
def layoutTail (elemWs memberWs sep closeWs : List Char) : List student → List Char
  | [] => []
  | r :: rs => ',' :: (elemWs ++ (layoutStudent memberWs sep closeWs r
      ++ layoutTail elemWs memberWs sep closeWs rs))

/-- The aggregate as a JSON text with the given whitespace: `null` for the nil
slice, `[]` for an empty one, else the objects between brackets. -/
def layoutAggregate (elemWs memberWs sep closeWs endWs : List Char) :
    Option (List student) → List Char
  | none => "null".data
  | some [] => "[]".data
  | some (r :: rs) => '[' :: (elemWs ++ (layoutStudent memberWs sep closeWs r
      ++ (layoutTail elemWs memberWs sep closeWs rs ++ (endWs ++ [']']))))

/-- Compact form: no whitespace at all between the tokens. -/
def compactLayout (record : Option (List student)) : String :=
  String.mk (layoutAggregate [] [] [] [] [] record)

/-- Pretty form: every element on lines of its own at nesting level 1, every
member on a line of its own at nesting level 2, a space after each colon,
closing brackets on lines of their own at the level of their opening line. -/
def prettyLayout (record : Option (List student)) : String :=
  String.mk (layoutAggregate (lineBreak 1) (lineBreak 2) [' '] (lineBreak 1) (lineBreak 0) record)
/-! ## `writeJsonFile` -/

/-- Go `append(record, tmpRecord...)`: appending nothing leaves the slice as it
is (a nil slice stays nil), appending something yields a non-nil slice. -/
def goAppend (record : Option (List student)) (tmpRecord : List student) :
    Option (List student) :=
  match tmpRecord with
  | [] => record
  | _ :: _ => some (record.getD [] ++ tmpRecord)

/-- The elements of a slice that may be nil. -/
def elems (record : Option (List student)) : List student :=
  record.getD []

/-- The receive loop of `writeJsonFile`.  The first argument lists the batches
that arrive on the channel before it is closed; once it is exhausted the
receive yields the zero value with `more = false` and the loop is left.  The
result is the aggregate `record` at that point. -/
def receiveLoop : List (List student) → Option (List student) → Option (List student)
  | [], record =>
    let tmpRecord : List student := []
    if tmpRecord.length > 0 then goAppend record tmpRecord else record
  | tmpRecord :: pending, record =>
    receiveLoop pending (if tmpRecord.length > 0 then goAppend record tmpRecord else record)

/-- The aggregate that `writeJsonFile` serializes. -/
def aggregate (batches : List (List student)) : Option (List student) :=
  receiveLoop batches none

/-- The bytes `writeJsonFile` hands to `ioutil.WriteFile`. -/
def outputBytes (batches : List (List student)) (pretty : Bool) : String :=
  if pretty then MarshalIndent (aggregate batches) else Marshal (aggregate batches)

/-- The function `writeJsonFile`, run on a channel that delivers `batches` and is then closed:
its trace.  The results of `WriteFile` and of the prints are discarded by the
code. -/
def writeJsonFile (jsonPath : String) (batches : List (List student)) (pretty : Bool) :
    List Event :=
  [Event.stdout "Writing JSON file...\n",
   Event.writeFile jsonPath (outputBytes batches pretty) 0o644,
   Event.stdout "Completed!\n",
   Event.doneSend true]

/-! ## `processCsvFile` -/

/-- The function `processCsvFile`.  `opened` is the outcome of `os.Open` (the content of the
file, or an error text); `decode` is the Record Decoder: from the content of
the opened file (`none` for the nil handle left by a failed open) it gives
the slice it leaves in `students` and its error.  `stderrOk1`, `stderrOk2`
are the outcomes of the writes to standard error of the two `check` calls.
The deferred calls run at the return, last registered first. -/
def processCsvFile (filePath : String) (opened : Except String String)
    (decode : Option String → List student × Option String) (stderrOk1 stderrOk2 : Bool) :
    List Event × Flow Unit :=
  let file : Option String := match opened with
    | Except.ok content => some content
    | Except.error _ => none
  let err : Option String := match opened with
    | Except.ok _ => none
    | Except.error msg => some msg
  match check err stderrOk1 with
  | (tr1, Flow.exit code) => (Event.openFile filePath :: tr1, Flow.exit code)
  | (tr1, Flow.ret _) =>
    let students := (decode file).1
    let err2 := (decode file).2
    match check err2 stderrOk2 with
    | (tr2, Flow.exit code) =>
      (Event.openFile filePath :: tr1 ++ Event.unmarshalFile filePath :: tr2, Flow.exit code)
    | (tr2, Flow.ret _) =>
      (Event.openFile filePath :: tr1 ++ Event.unmarshalFile filePath :: tr2
        ++ [Event.send students, Event.closeFile filePath, Event.wgDone], Flow.ret ())

/-! ## The Record Decoder -/

/-- Modelled from the spec: part of the Record Decoder. Split a text at every
occurrence of a separator. -/
def splitFields (sep : Char) : List Char → List (List Char)
  | [] => [[]]
  | c :: cs =>
    match splitFields sep cs with
    | [] => [[c]]
    | field :: fields => if c = sep then [] :: field :: fields else (c :: field) :: fields

/-- Modelled from the spec: part of the Record Decoder. Read an integer field:
an optional minus sign and at least one digit. -/
def parseIntField (field : List Char) : Option Int :=
  let neg : Bool := field.head? = some '-'
  let ds := if neg then field.drop 1 else field
  if ds ≠ [] ∧ ds.all isDigit then
    some (if neg then - (digitsValue ds : Int) else (digitsValue ds : Int))
  else none

/-- Modelled from the spec: part of the Record Decoder. The field of a row that
stands under the column of the given name. -/
def column (header row : List (List Char)) (name : String) : Option (List Char) :=
  match header, row with
  | h :: hs, f :: fs => if h = name.data then some f else column hs fs name
  | _, _ => none

/-- Modelled from the spec: part of the Record Decoder. An integer column of a
row: zero when the header lacks the column. -/
def intColumn (header row : List (List Char)) (name : String) : Option Int :=
  match column header row name with
  | none => some 0
  | some field => parseIntField field

/-- Modelled from the spec: part of the Record Decoder. A text column of a row:
empty when the header lacks the column. -/
def textColumn (header row : List (List Char)) (name : String) : String :=
  match column header row name with
  | none => ""
  | some field => String.mk field

/-- Modelled from the spec: part of the Record Decoder. One data row under a
header: the four tagged fields, or `none` when the row does not have the
width of the header or an integer field is malformed. -/
def decodeRow (header row : List (List Char)) : Option student :=
  if row.length ≠ header.length then none
  else
    match intColumn header row "No", intColumn header row "Score" with
    | some no, some score =>
      some { No := no, Name := textColumn header row "Name", Score := score,
             Hobby := textColumn header row "Hobby" }
    | _, _ => none

/-- Modelled from the spec: part of the Record Decoder. All data rows, in file
order; `none` as soon as one row is malformed. -/
def decodeRows (header : List (List Char)) : List (List (List Char)) → Option (List student)
  | [] => some []
  | row :: rows =>
    match decodeRow header row, decodeRows header rows with
    | some r, some rs => some (r :: rs)
    | _, _ => none

/-- Modelled from the spec: the Record Decoder (`gocsv.UnmarshalFile`, a
library that is not part of the repository), on CSV text without quoted
fields.  "Given a file handle, produces an ordered sequence of fixed-shape
records or fails", with the "tag-driven field mapping `No,Name,Score,Hobby`":
the first non-empty line names the columns, every other non-empty line is
one record, in file order; a malformed row, an empty file and a nil handle
are errors.  The result is the slice left in `students` and the error. -/
def UnmarshalFile (file : Option String) : List student × Option String :=
  match file with
  | none => ([], some "invalid argument")
  | some content =>
    match ((splitFields '\n' content.data).filter (fun line => line ≠ [])).map (splitFields ',') with
    | [] => ([], some "empty csv file given")
    | header :: rows =>
      match decodeRows header rows with
      | some students => (students, none)
      | none => ([], some "record on line: malformed row")

/-! ## `main` -/

/-- How the sequential part of `main` ends: the process has exited, or every
goroutine has been started for the given paths. -/
inductive MainFlow where
  | exited (code : Nat)
  | launched (filePaths : List String) (pretty : Bool)
  deriving DecidableEq, Repr

/-- The validation loop of `main`: `checkIfFileValid` then `check` on every path in
turn.  `stderrOk k` is the outcome of the `k`-th write of `check` to standard
error (counted from 0); the number of writes made so far is threaded
through. -/
def validateLoop (stat : String → StatOutcome) (stderrOk : Nat → Bool) :
    List String → Nat → List Event × Flow Nat
  | [], k => ([], Flow.ret k)
  | filePath :: rest, k =>
    let valid := checkIfFileValid stat filePath
    let err := valid.2.2
    match check err (stderrOk k) with
    | (tr, Flow.exit code) => (valid.1 ++ tr, Flow.exit code)
    | (tr, Flow.ret _) =>
      match validateLoop stat stderrOk rest (if err.isSome then k + 1 else k) with
      | (trRest, flow) => (valid.1 ++ tr ++ trRest, flow)

/-- The function `main` up to the start of the last goroutine: arguments, validation of
every path, then the wait-group count, one `processCsvFile` goroutine per
path and the `writeJsonFile` goroutine.  What follows in the source
(`wg.Wait()`, `close(channel)`, `<-done`) only synchronises with the
goroutines. -/
def main (osArgs : List String) (stat : String → StatOutcome) (stderrOk : Nat → Bool) :
    List Event × MainFlow :=
  match getArgs osArgs with
  | (tr0, Flow.exit code) => (tr0, MainFlow.exited code)
  | (tr0, Flow.ret (a, err)) =>
    match check err (stderrOk 0) with
    | (tr1, Flow.exit code) => (tr0 ++ tr1, MainFlow.exited code)
    | (tr1, Flow.ret _) =>
      match validateLoop stat stderrOk a.filePaths (if err.isSome then 1 else 0) with
      | (tr2, Flow.exit code) => (tr0 ++ tr1 ++ tr2, MainFlow.exited code)
      | (tr2, Flow.ret _) =>
        (tr0 ++ tr1 ++ tr2 ++ Event.wgAdd a.filePaths.length
            :: (a.filePaths.map Event.goProcessCsvFile
              ++ [Event.goWriteJsonFile "students.json" a.pretty]),
          MainFlow.launched a.filePaths a.pretty)

/-! ## The extension of a path, as the specification words it -/

/-- The last element of a path: what follows its last separator, the whole
path when it has none. -/
def lastElement : List Char → List Char
  | [] => []
  | c :: cs =>
    if '/' ∈ cs then lastElement cs
    else if c = '/' then cs
    else c :: cs

/-- The suffix that starts at the last dot; empty when there is no dot. -/
def fromLastDot : List Char → List Char
  | [] => []
  | c :: cs =>
    if '.' ∈ cs then fromLastDot cs
    else if c = '.' then c :: cs
    else []

/-- The extension of a path: "the suffix starting at the last `.` of the last
path element, empty if there is none". -/
def extension (path : String) : String :=
  String.mk (fromLastDot (lastElement path.data))
/-! ## Theorems -/

/-! ### Decimal digits -/

theorem digitsLoop_eq (n : Nat) : ∀ (fuel : Nat) (acc : List Char), n < fuel →
    digitsLoop fuel n acc = natDigits n ++ acc := by
  induction n using Nat.strong_induction_on with
  | _ n ih =>
    intro fuel acc hfuel
    obtain ⟨f, rfl⟩ : ∃ f, fuel = f + 1 := ⟨fuel - 1, by omega⟩
    by_cases hn : n < 10
    · simp [natDigits, digitsLoop, hn]
    · have h1 : n / 10 < n := by omega
      have h2 : n / 10 < f := by omega
      have h3 : n / 10 < n := by omega
      obtain ⟨m, hm⟩ : ∃ m, n = m + 1 := ⟨n - 1, by omega⟩
      have h4 : n / 10 < m + 1 := by omega
      simp only [natDigits, digitsLoop, hn, if_false]
      rw [ih (n / 10) h1 f _ h2]
      have := ih (n / 10) h1 (m + 1) [digitChar (n % 10)] h4
      simp only [hm] at this ⊢
      rw [this]
      simp

theorem natDigits_small (n : Nat) (h : n < 10) : natDigits n = [digitChar n] := by
  simp [natDigits, digitsLoop, h]

theorem natDigits_step (n : Nat) (h : 10 ≤ n) :
    natDigits n = natDigits (n / 10) ++ [digitChar (n % 10)] := by
  have hn : ¬ n < 10 := by omega
  have h2 : n / 10 < n := by omega
  conv_lhs => unfold natDigits
  simp only [digitsLoop, hn, if_false]
  exact digitsLoop_eq (n / 10) n _ h2

theorem digitChar_toNat (d : Nat) (h : d < 10) : (digitChar d).toNat = 48 + d := by
  interval_cases d <;> rfl

theorem isDigit_digitChar (d : Nat) (h : d < 10) : isDigit (digitChar d) = true := by
  simp [isDigit, digitChar_toNat d h]
  omega

theorem natDigits_all_digits (n : Nat) : ∀ c ∈ natDigits n, isDigit c = true := by
  induction n using Nat.strong_induction_on with
  | _ n ih =>
    by_cases hn : n < 10
    · rw [natDigits_small n hn]
      intro c hc
      simp only [List.mem_singleton] at hc
      subst hc
      exact isDigit_digitChar n hn
    · rw [natDigits_step n (by omega)]
      intro c hc
      rcases List.mem_append.mp hc with h | h
      · exact ih (n / 10) (by omega) c h
      · simp only [List.mem_singleton] at h
        subst h
        exact isDigit_digitChar _ (Nat.mod_lt _ (by decide))

theorem natDigits_ne_nil (n : Nat) : natDigits n ≠ [] := by
  by_cases hn : n < 10
  · rw [natDigits_small n hn]; simp
  · rw [natDigits_step n (by omega)]; simp

theorem digitsValue_append_one (ds : List Char) (c : Char) :
    digitsValue (ds ++ [c]) = digitsValue ds * 10 + (c.toNat - 48) := by
  simp [digitsValue, List.foldl_append]

theorem digitsValue_natDigits (n : Nat) : digitsValue (natDigits n) = n := by
  induction n using Nat.strong_induction_on with
  | _ n ih =>
    by_cases hn : n < 10
    · rw [natDigits_small n hn]
      simp [digitsValue, digitChar_toNat n hn]
    · rw [natDigits_step n (by omega), digitsValue_append_one, ih (n / 10) (by omega),
        digitChar_toNat _ (Nat.mod_lt _ (by decide))]
      omega

theorem natDigits_head (n : Nat) (h : n ≠ 0) : (natDigits n).head? ≠ some '0' := by
  induction n using Nat.strong_induction_on with
  | _ n ih =>
    by_cases hn : n < 10
    · rw [natDigits_small n hn]
      interval_cases n <;> first | exact absurd rfl h | decide
    · rw [natDigits_step n (by omega)]
      have := ih (n / 10) (by omega) (by omega)
      cases hds : natDigits (n / 10) with
      | nil => exact absurd hds (natDigits_ne_nil _)
      | cons d ds => rw [hds] at this; simpa using this

theorem natDigits_zero : natDigits 0 = ['0'] := by decide

theorem spanDigits_append (ds rest : List Char) (hds : ∀ c ∈ ds, isDigit c = true)
    (hrest : ∀ c, rest.head? = some c → isDigit c = false) :
    spanDigits (ds ++ rest) = (ds, rest) := by
  induction ds with
  | nil =>
    cases rest with
    | nil => rfl
    | cons c cs => simp [spanDigits, hrest c rfl]
  | cons d ds ih =>
    have hd : isDigit d = true := hds d (List.mem_cons_self _ _)
    have := ih (fun c hc => hds c (List.mem_cons_of_mem _ hc))
    simp [spanDigits, hd, this]

theorem numberEnd_head (rest : List Char) (h : numberEnd rest = true) :
    ∀ c, rest.head? = some c → isDigit c = false ∧ c ≠ '.' ∧ c ≠ 'e' ∧ c ≠ 'E' := by
  intro c hc
  cases rest with
  | nil => simp at hc
  | cons d ds =>
    simp only [List.head?_cons, Option.some.injEq] at hc
    subst hc
    simpa [numberEnd, and_assoc] using h

theorem natDigits_head_not_minus (n : Nat) : (natDigits n).head? ≠ some '-' := by
  cases hds : natDigits n with
  | nil => simp
  | cons d ds =>
    have := natDigits_all_digits n d (by rw [hds]; exact List.mem_cons_self _ _)
    intro h
    simp only [List.head?_cons, Option.some.injEq] at h
    subst h
    exact absurd this (by decide)

theorem parseNumber_natDigits (n : Nat) (rest : List Char) (hend0 : numberEnd rest = true) :
    parseNumber (natDigits n ++ rest) = some ((n : Int), rest) := by
  have hrest := numberEnd_head rest hend0
  have hne := natDigits_ne_nil n
  have hhead : (natDigits n ++ rest).head? ≠ some '-' := by
    cases hds : natDigits n with
    | nil => exact absurd hds hne
    | cons d ds =>
      have := natDigits_head_not_minus n
      rw [hds] at this
      simpa using this
  have hspan := spanDigits_append (natDigits n) rest (natDigits_all_digits n)
    (fun c hc => (hrest c hc).1)
  have hlead : ¬ (1 < (natDigits n).length ∧ (natDigits n).head? = some '0') := by
    rintro ⟨hlen, hz⟩
    by_cases h0 : n = 0
    · subst h0; rw [natDigits_zero] at hlen; simp at hlen
    · exact natDigits_head n h0 hz
  have hend : ¬ (rest.head? = some '.' ∨ rest.head? = some 'e' ∨ rest.head? = some 'E') := by
    rintro (h | h | h)
    · exact (hrest _ h).2.1 rfl
    · exact (hrest _ h).2.2.1 rfl
    · exact (hrest _ h).2.2.2 rfl
  unfold parseNumber
  simp only [hhead, decide_False, Bool.false_eq_true, if_false, hspan, hne, hlead, hend,
    digitsValue_natDigits]

theorem parseNumber_encodeInt (v : Int) (rest : List Char) (hend0 : numberEnd rest = true) :
    parseNumber (encodeInt v ++ rest) = some (v, rest) := by
  have hrest := numberEnd_head rest hend0
  have hne := natDigits_ne_nil v.natAbs
  have hspan := spanDigits_append (natDigits v.natAbs) rest (natDigits_all_digits v.natAbs)
    (fun c hc => (hrest c hc).1)
  by_cases hv : v < 0
  · have hlead : ¬ (1 < (natDigits v.natAbs).length ∧ (natDigits v.natAbs).head? = some '0') := by
      rintro ⟨_, hz⟩
      exact natDigits_head v.natAbs (by omega) hz
    have hend : ¬ (rest.head? = some '.' ∨ rest.head? = some 'e' ∨ rest.head? = some 'E') := by
      rintro (h | h | h)
      · exact (hrest _ h).2.1 rfl
      · exact (hrest _ h).2.2.1 rfl
      · exact (hrest _ h).2.2.2 rfl
    have hval : -((v.natAbs : Nat) : Int) = v := by omega
    unfold parseNumber encodeInt
    simp only [hv, if_true, List.cons_append, List.head?_cons, decide_True, List.drop_succ_cons,
      List.drop_zero, hspan, hne, hlead, hend, if_false, digitsValue_natDigits, hval]
  · have hval : ((v.natAbs : Nat) : Int) = v := by omega
    unfold encodeInt
    simp only [hv, if_false]
    rw [parseNumber_natDigits _ _ hend0, hval]

/-! ### String literals -/

theorem hexVal_hexDigit (k : Nat) (h : k < 16) : hexVal (hexDigit k) = some k := by
  interval_cases k <;> rfl

theorem char_eq_of_toNat (c : Char) (n : Nat) (h : c.toNat = n) : c = Char.ofNat n := by
  rw [← h, Char.ofNat_toNat]

theorem readChar_plain (c : Char) (rest : List Char) (h1 : c ≠ '\\') (h2 : 32 ≤ c.toNat) :
    readChar (c :: rest) = some (c, rest) := by
  have h3 : ¬ c.toNat < 32 := by omega
  simp [readChar, h1, h3]

theorem readChar_escapeChar (c : Char) (rest : List Char) :
    readChar (escapeChar c ++ rest) = some (c, rest) := by
  unfold escapeChar
  by_cases hascii : c.toNat < 128
  · simp only [hascii, if_true]
    by_cases hsafe : htmlSafe c = true
    · simp only [hsafe, if_true, List.singleton_append]
      simp only [htmlSafe, Bool.and_eq_true, decide_eq_true_eq, bne_iff_ne, ne_eq] at hsafe
      exact readChar_plain c rest hsafe.1.1.1.2 hsafe.1.1.1.1.1
    · simp only [hsafe, Bool.false_eq_true, if_false]
      by_cases hq : c = '\\' ∨ c = '"'
      · rcases hq with rfl | rfl <;> rfl
      · simp only [hq, if_false]
        by_cases hn : c = '\n'
        · subst hn; rfl
        · by_cases hr : c = '\r'
          · subst hr; rfl
          · by_cases ht : c = '\t'
            · subst ht; rfl
            · simp only [hn, hr, ht, if_false]
              have hlo : c.toNat / 16 < 16 := by omega
              have hhi : c.toNat % 16 < 16 := Nat.mod_lt _ (by decide)
              have hz : hexVal '0' = some 0 := rfl
              have hval : c.toNat / 16 * 16 + c.toNat % 16 = c.toNat := by omega
              simp [readChar, hz, hexVal_hexDigit _ hlo, hexVal_hexDigit _ hhi, hval,
                Char.ofNat_toNat]
              omega
  · simp only [hascii, if_false]
    by_cases h1 : c.toNat = 8232
    · have := char_eq_of_toNat c _ h1
      subst this
      rfl
    · by_cases h2 : c.toNat = 8233
      · have := char_eq_of_toNat c _ h2
        subst this
        rfl
      · simp only [h1, h2, if_false, List.singleton_append]
        apply readChar_plain
        · intro h; subst h; exact hascii (by decide)
        · omega

theorem escapeChar_head (c : Char) (rest : List Char) :
    ∃ d ds, escapeChar c ++ rest = d :: ds ∧ d ≠ '"' := by
  unfold escapeChar
  by_cases hascii : c.toNat < 128
  · by_cases hsafe : htmlSafe c = true
    · refine ⟨c, rest, by simp [hascii, hsafe], ?_⟩
      simp only [htmlSafe, Bool.and_eq_true, decide_eq_true_eq, bne_iff_ne, ne_eq] at hsafe
      exact hsafe.1.1.1.1.2
    · refine ⟨'\\', ((escapeChar c).drop 1) ++ rest, ?_, by decide⟩
      unfold escapeChar
      simp only [hascii, hsafe, if_true, Bool.false_eq_true, if_false]
      split_ifs <;> rfl
  · by_cases h1 : c.toNat = 8232
    · exact ⟨'\\', _, by simp only [hascii, h1, if_true, if_false]; rfl, by decide⟩
    · by_cases h2 : c.toNat = 8233
      · exact ⟨'\\', _, by simp only [hascii, h1, h2, if_true, if_false]; rfl, by decide⟩
      · refine ⟨c, rest, by simp [hascii, h1, h2], ?_⟩
        intro h; subst h; exact hascii (by decide)

theorem escapeChar_length_pos (c : Char) : 0 < (escapeChar c).length := by
  unfold escapeChar
  split_ifs <;> simp

theorem parseStringBody_escapeBody (cs : List Char) : ∀ (fuel : Nat) (acc rest : List Char),
    (escapeBody cs).length < fuel →
    parseStringBody fuel (escapeBody cs ++ '"' :: rest) acc
      = some (String.mk (acc.reverse ++ cs), rest) := by
  induction cs with
  | nil =>
    intro fuel acc rest hfuel
    obtain ⟨f, rfl⟩ : ∃ f, fuel = f + 1 := ⟨fuel - 1, by simp [escapeBody] at hfuel; omega⟩
    simp [escapeBody, parseStringBody]
  | cons c cs ih =>
    intro fuel acc rest hfuel
    have hpos := escapeChar_length_pos c
    simp only [escapeBody, List.length_append] at hfuel
    obtain ⟨f, rfl⟩ : ∃ f, fuel = f + 1 := ⟨fuel - 1, by omega⟩
    obtain ⟨d, ds, hd, hdq⟩ := escapeChar_head c (escapeBody cs ++ '"' :: rest)
    have hread := readChar_escapeChar c (escapeBody cs ++ '"' :: rest)
    simp only [escapeBody, List.append_assoc]
    rw [hd] at hread ⊢
    simp only [parseStringBody, hdq, if_false, hread]
    rw [ih f (c :: acc) rest (by omega)]
    simp

theorem parseString_encode (s : String) (fuel : Nat) (rest : List Char)
    (hfuel : (escapeBody s.data).length < fuel) :
    parseStringBody fuel (escapeBody s.data ++ '"' :: rest) [] = some (s, rest) := by
  rw [parseStringBody_escapeBody s.data fuel [] rest hfuel]
  simp

/-! ### Reading the output back -/

theorem skipWs_append (ws rest : List Char) (h : allSpace ws = true) :
    skipWs (ws ++ rest) = skipWs rest := by
  induction ws with
  | nil => rfl
  | cons c cs ih =>
    simp only [allSpace, List.all_cons, Bool.and_eq_true] at h
    simp only [List.cons_append, skipWs, h.1, if_true]
    exact ih (by simpa [allSpace] using h.2)

theorem skipWs_cons (c : Char) (rest : List Char) (h : isSpace c = false) :
    skipWs (c :: rest) = c :: rest := by
  simp [skipWs, h]

theorem encodeInt_head (v : Int) :
    ∃ d ds, encodeInt v = d :: ds ∧ (d = '-' ∨ isDigit d = true) := by
  unfold encodeInt
  by_cases hv : v < 0
  · exact ⟨'-', natDigits v.natAbs, by simp [hv], Or.inl rfl⟩
  · cases hds : natDigits v.natAbs with
    | nil => exact absurd hds (natDigits_ne_nil _)
    | cons d ds =>
      refine ⟨d, ds, by simp [hv, hds], Or.inr ?_⟩
      exact natDigits_all_digits v.natAbs d (by rw [hds]; exact List.mem_cons_self _ _)

theorem parseValue_int (fuel : Nat) (ws rest : List Char) (v : Int)
    (hws : allSpace ws = true) (hend : numberEnd rest = true) :
    parseValue (fuel + 1) (ws ++ (encodeInt v ++ rest)) = some (Json.num v, rest) := by
  obtain ⟨d, ds, hd, hcase⟩ := encodeInt_head v
  have hnum := parseNumber_encodeInt v rest hend
  rw [hd] at hnum
  have hprops : isSpace d = false ∧ d ≠ '"' ∧ d ≠ '[' ∧ d ≠ '{' ∧ d ≠ 'n' ∧ d ≠ 't'
      ∧ d ≠ 'f' := by
    rcases hcase with rfl | hdig
    · decide
    · simp only [isDigit, Bool.and_eq_true, decide_eq_true_eq] at hdig
      refine ⟨?_, ?_, ?_, ?_, ?_, ?_, ?_⟩
      · simp only [isSpace, Bool.or_eq_false_iff, decide_eq_false_iff_not]
        refine ⟨⟨⟨?_, ?_⟩, ?_⟩, ?_⟩ <;> (intro h; subst h; revert hdig; decide)
      all_goals (intro h; subst h; revert hdig; decide)
  obtain ⟨h0, h1, h2, h3, h4, h5, h6⟩ := hprops
  rw [hd]
  simp only [parseValue, skipWs_append ws _ hws, List.cons_append, skipWs_cons d _ h0,
    h1, h2, h3, h4, h5, h6, if_false]
  rw [List.cons_append] at hnum
  rw [hnum]

theorem encodeString_append (s : String) (rest : List Char) :
    encodeString s ++ rest = '"' :: (escapeBody s.data ++ '"' :: rest) := by
  simp [encodeString]

theorem parseValue_string (fuel : Nat) (ws rest : List Char) (s : String)
    (hws : allSpace ws = true) :
    parseValue (fuel + 1) (ws ++ (encodeString s ++ rest)) = some (Json.str s, rest) := by
  have hq : isSpace '"' = false := by decide
  rw [encodeString_append]
  simp only [parseValue, skipWs_append ws _ hws, skipWs_cons '"' _ hq, if_true]
  rw [parseString_encode s _ rest (by simp only [List.length_append, List.length_cons]; omega)]

theorem parseMembers_more (fuel : Nat) (ws sep text rest : List Char) (key : String) (v : Json)
    (acc : List (String × Json)) (hws : allSpace ws = true)
    (hval : parseValue fuel (sep ++ (text ++ ',' :: rest)) = some (v, ',' :: rest)) :
    parseMembers (fuel + 1) (ws ++ (encodeString key ++ ':' :: (sep ++ (text ++ ',' :: rest)))) acc
      = parseMembers fuel rest ((key, v) :: acc) := by
  have hq : isSpace '"' = false := by decide
  have hc : isSpace ':' = false := by decide
  have hm : isSpace ',' = false := by decide
  rw [encodeString_append]
  simp only [parseMembers, skipWs_append ws _ hws, skipWs_cons '"' _ hq, if_true]
  rw [parseString_encode key _ _ (by simp only [List.length_append, List.length_cons]; omega)]
  simp only [skipWs_cons ':' _ hc, if_true, hval, skipWs_cons ',' _ hm]

theorem parseMembers_last (fuel : Nat) (ws sep text closeWs rest : List Char) (key : String)
    (v : Json) (acc : List (String × Json)) (hws : allSpace ws = true)
    (hclose : allSpace closeWs = true)
    (hval : parseValue fuel (sep ++ (text ++ (closeWs ++ '}' :: rest)))
      = some (v, closeWs ++ '}' :: rest)) :
    parseMembers (fuel + 1)
        (ws ++ (encodeString key ++ ':' :: (sep ++ (text ++ (closeWs ++ '}' :: rest))))) acc
      = some (Json.obj ((key, v) :: acc).reverse, rest) := by
  have hq : isSpace '"' = false := by decide
  have hc : isSpace ':' = false := by decide
  have hb : isSpace '}' = false := by decide
  have hne : ('}' : Char) ≠ ',' := by decide
  rw [encodeString_append]
  simp only [parseMembers, skipWs_append ws _ hws, skipWs_cons '"' _ hq, if_true]
  rw [parseString_encode key _ _ (by simp only [List.length_append, List.length_cons]; omega)]
  simp only [skipWs_cons ':' _ hc, if_true, hval, skipWs_append closeWs _ hclose,
    skipWs_cons '}' _ hb, hne, if_false]

theorem numberEnd_comma (rest : List Char) : numberEnd (',' :: rest) = true := by
  simp [numberEnd]; decide

theorem parseValue_student (fuel : Nat) (ws memberWs sep closeWs rest : List Char) (r : student)
    (hws : allSpace ws = true) (hm : allSpace memberWs = true) (hs : allSpace sep = true)
    (hc : allSpace closeWs = true) :
    parseValue (fuel + 6) (ws ++ (layoutStudent memberWs sep closeWs r ++ rest))
      = some (studentJson r, rest) := by
  have hb : isSpace '{' = false := by decide
  have hq : isSpace '"' = false := by decide
  have hne : ('"' : Char) ≠ '}' := by decide
  have hne2 : ('{' : Char) ≠ '"' := by decide
  have hne3 : ('{' : Char) ≠ '[' := by decide
  have k1 : ∀ X : List Char, "\"no\":".data ++ X = encodeString "no" ++ ':' :: X := fun _ => rfl
  have k2 : ∀ X : List Char, "\"name\":".data ++ X = encodeString "name" ++ ':' :: X :=
    fun _ => rfl
  have k3 : ∀ X : List Char, "\"score\":".data ++ X = encodeString "score" ++ ':' :: X :=
    fun _ => rfl
  have k4 : ∀ X : List Char, "\"hobby\":".data ++ X = encodeString "hobby" ++ ':' :: X :=
    fun _ => rfl
  have hskip : ∀ X : List Char, skipWs (memberWs ++ (encodeString "no" ++ X))
      = encodeString "no" ++ X := by
    intro X
    rw [skipWs_append _ _ hm, encodeString_append]
    exact skipWs_cons '"' _ hq
  unfold layoutStudent
  rw [k1, k2, k3, k4]
  simp only [List.cons_append, List.append_assoc]
  rw [show fuel + 6 = (fuel + 5) + 1 from rfl]
  simp only [parseValue, skipWs_append ws _ hws, skipWs_cons '{' _ hb, hne2, hne3, if_false,
    if_true]
  rw [hskip]
  have e0 : ∀ X : List Char, encodeString "no" ++ X = '"' :: (escapeBody "no".data ++ '"' :: X) :=
    fun X => encodeString_append "no" X
  rw [e0]
  simp only [hne, if_false]
  rw [← e0]
  simp only [List.nil_append]
  have m1 := parseMembers_more (fuel + 4) [] sep (encodeInt r.No)
  simp only [List.nil_append] at m1
  rw [m1 _ "no" (Json.num r.No) [] rfl (parseValue_int (fuel + 3) sep _ r.No hs (numberEnd_comma _))]
  rw [parseMembers_more (fuel + 3) memberWs sep (encodeString r.Name) _ "name" (Json.str r.Name) _
    hm (parseValue_string (fuel + 2) sep _ r.Name hs)]
  rw [parseMembers_more (fuel + 2) memberWs sep (encodeInt r.Score) _ "score" (Json.num r.Score) _
    hm (parseValue_int (fuel + 1) sep _ r.Score hs (numberEnd_comma _))]
  rw [parseMembers_last (fuel + 1) memberWs sep (encodeString r.Hobby) closeWs rest "hobby"
    (Json.str r.Hobby) _ hm hc (parseValue_string fuel sep _ r.Hobby hs)]
  rfl

theorem layoutTail_length (elemWs memberWs sep closeWs : List Char) (rs : List student) :
    rs.length ≤ (layoutTail elemWs memberWs sep closeWs rs).length := by
  induction rs with
  | nil => simp [layoutTail]
  | cons r rs ih =>
    simp only [layoutTail, List.length_cons, List.length_append]
    omega

theorem layoutStudent_length (memberWs sep closeWs : List Char) (r : student) :
    6 ≤ (layoutStudent memberWs sep closeWs r).length := by
  simp only [layoutStudent, List.length_cons, List.length_append, String.length_data]
  have : "\"no\":".length = 5 := by decide
  omega

theorem parseElements_succ (fuel : Nat) (input : List Char) (acc : List Json) :
    parseElements (fuel + 1) input acc =
      match parseValue fuel input with
      | none => none
      | some (v, rest) =>
        match skipWs rest with
        | [] => none
        | d :: ds =>
          if d = ',' then parseElements fuel ds (v :: acc)
          else if d = ']' then some (Json.arr (v :: acc).reverse, ds)
          else none := by
  rw [parseElements]

theorem parseElements_layout (elemWs memberWs sep closeWs endWs rest : List Char)
    (he : allSpace elemWs = true) (hm : allSpace memberWs = true) (hs : allSpace sep = true)
    (hc : allSpace closeWs = true) (hend : allSpace endWs = true) (rs : List student) :
    ∀ (fuel : Nat) (ws : List Char) (r : student) (acc : List Json), allSpace ws = true →
      parseElements (fuel + rs.length + 7)
          (ws ++ (layoutStudent memberWs sep closeWs r
            ++ (layoutTail elemWs memberWs sep closeWs rs ++ (endWs ++ ']' :: rest)))) acc
        = some (Json.arr (acc.reverse ++ (r :: rs).map studentJson), rest) := by
  have hcomma : isSpace ',' = false := by decide
  have hbr : isSpace ']' = false := by decide
  have hne : (']' : Char) ≠ ',' := by decide
  induction rs with
  | nil =>
    intro fuel ws r acc hws
    simp only [List.length_nil, Nat.add_zero, layoutTail, List.nil_append]
    rw [show fuel + 7 = (fuel + 6) + 1 from rfl, parseElements_succ]
    rw [parseValue_student fuel ws memberWs sep closeWs _ r hws hm hs hc]
    simp only [skipWs_append endWs _ hend, skipWs_cons ']' _ hbr, hne, if_false, if_true]
    simp
  | cons r2 rs ih =>
    intro fuel ws r acc hws
    simp only [List.length_cons, layoutTail, List.cons_append, List.append_assoc]
    rw [show fuel + (rs.length + 1) + 7 = ((fuel + rs.length + 1) + 6) + 1 by omega,
      parseElements_succ]
    rw [parseValue_student (fuel + rs.length + 1) ws memberWs sep closeWs _ r hws hm hs hc]
    simp only [skipWs_cons ',' _ hcomma, if_true]
    rw [show fuel + rs.length + 1 + 6 = fuel + rs.length + 7 by omega]
    rw [ih fuel elemWs r2 (studentJson r :: acc) he]
    simp

theorem parseJson_layout (elemWs memberWs sep closeWs endWs : List Char)
    (he : allSpace elemWs = true) (hm : allSpace memberWs = true) (hs : allSpace sep = true)
    (hc : allSpace closeWs = true) (hend : allSpace endWs = true)
    (record : Option (List student)) :
    parseJson (String.mk (layoutAggregate elemWs memberWs sep closeWs endWs record))
      = some (aggregateJson record) := by
  cases record with
  | none => rfl
  | some rs =>
    cases rs with
    | nil => rfl
    | cons r rs =>
      have hb : isSpace '[' = false := by decide
      have hbrace : isSpace '{' = false := by decide
      have hne1 : ('[' : Char) ≠ '"' := by decide
      have hne2 : ('{' : Char) ≠ ']' := by decide
      have hlen := layoutTail_length elemWs memberWs sep closeWs rs
      have hlen2 := layoutStudent_length memberWs sep closeWs r
      obtain ⟨fuel, hfuel⟩ : ∃ fuel,
          (layoutAggregate elemWs memberWs sep closeWs endWs (some (r :: rs))).length + 1
            = (fuel + rs.length + 7) + 1 := by
        refine ⟨(layoutAggregate elemWs memberWs sep closeWs endWs (some (r :: rs))).length
          - rs.length - 7, ?_⟩
        simp only [layoutAggregate, List.length_cons, List.length_append]
        omega
      have hstart : ∀ X : List Char, layoutStudent memberWs sep closeWs r ++ X
          = '{' :: ((layoutStudent memberWs sep closeWs r).drop 1 ++ X) := fun _ => rfl
      unfold parseJson
      simp only [hfuel]
      simp only [layoutAggregate, parseValue, skipWs_cons '[' _ hb, hne1, if_false, if_true,
        skipWs_append elemWs _ he]
      rw [hstart]
      simp only [skipWs_cons '{' _ hbrace, hne2, if_false]
      rw [← hstart]
      have := parseElements_layout elemWs memberWs sep closeWs endWs [] he hm hs hc hend rs fuel []
        r [] rfl
      simp only [List.nil_append] at this
      rw [this]
      simp [aggregateJson, skipWs]

/-! ### The compact output, token by token -/

theorem encodeStudent_layout (r : student) : encodeStudent r = layoutStudent [] [] [] r := by
  simp [encodeStudent, layoutStudent]

theorem encodeElements_layout (rs : List student) :
    encodeElements rs false = layoutTail [] [] [] [] rs := by
  induction rs with
  | nil => rfl
  | cons r rs ih => simp [encodeElements, layoutTail, ih, encodeStudent_layout]

theorem marshalChars_layout (record : Option (List student)) :
    marshalChars record = layoutAggregate [] [] [] [] [] record := by
  cases record with
  | none => rfl
  | some rs =>
    cases rs with
    | nil => rfl
    | cons r rs =>
      simp [marshalChars, layoutAggregate, encodeElements, encodeElements_layout,
        encodeStudent_layout]

/-! ### String literals and numbers under `Indent` and under whitespace removal -/

theorem hexDigit_plain (k : Nat) : hexDigit k ≠ '\\' ∧ hexDigit k ≠ '"' := by
  by_cases h : k < 16
  · interval_cases k <;> decide
  · have : hexDigit k = '0' := by
      unfold hexDigit
      apply List.getD_eq_default
      simp
      omega
    rw [this]
    decide

theorem litState_escapeChar (c : Char) : litState false (escapeChar c) = some false := by
  unfold escapeChar
  by_cases hascii : c.toNat < 128
  · by_cases hsafe : htmlSafe c = true
    · simp only [hascii, hsafe, if_true]
      simp only [htmlSafe, Bool.and_eq_true, decide_eq_true_eq, bne_iff_ne, ne_eq] at hsafe
      simp [litState, hsafe.1.1.1.2, hsafe.1.1.1.1.2]
    · simp only [hascii, hsafe, if_true, Bool.false_eq_true, if_false]
      have h1 := (hexDigit_plain (c.toNat / 16)).1
      have h2 := (hexDigit_plain (c.toNat / 16)).2
      have h3 := (hexDigit_plain (c.toNat % 16)).1
      have h4 := (hexDigit_plain (c.toNat % 16)).2
      split_ifs <;> simp [litState, h1, h2, h3, h4]
  · simp only [hascii, if_false]
    have hb : c ≠ '\\' := by intro h; subst h; exact hascii (by decide)
    have hq : c ≠ '"' := by intro h; subst h; exact hascii (by decide)
    split_ifs <;> simp [litState, hb, hq]

theorem litState_append (l1 l2 : List Char) : ∀ (e e1 : Bool), litState e l1 = some e1 →
    litState e (l1 ++ l2) = litState e1 l2 := by
  induction l1 with
  | nil => intro e e1 h; simp only [litState, Option.some.injEq] at h; subst h; rfl
  | cons c cs ih =>
    intro e e1 h
    cases e with
    | true => simp only [litState, List.cons_append] at h ⊢; exact ih _ _ h
    | false =>
      simp only [litState, List.cons_append] at h ⊢
      split_ifs at h ⊢ with hb hq
      · exact ih _ _ h
      · exact ih _ _ h

theorem litState_escapeBody (cs : List Char) : litState false (escapeBody cs) = some false := by
  induction cs with
  | nil => rfl
  | cons c cs ih =>
    simp only [escapeBody]
    rw [litState_append _ _ false false (litState_escapeChar c), ih]

theorem indentLoop_lit (U : List Char) (ni : Bool) (d : Nat) (l rest : List Char) :
    ∀ (e e1 : Bool), litState e l = some e1 →
      indentLoop U ni d true e (l ++ rest) = l ++ indentLoop U ni d true e1 rest := by
  induction l with
  | nil => intro e e1 h; simp only [litState, Option.some.injEq] at h; subst h; rfl
  | cons c cs ih =>
    intro e e1 h
    cases e with
    | true =>
      simp only [litState, List.cons_append] at h ⊢
      simp only [indentLoop, if_true, ih _ _ h]
    | false =>
      simp only [litState, List.cons_append] at h ⊢
      split_ifs at h with hb hq
      · simp only [indentLoop, Bool.false_eq_true, if_false, hb, if_true, ih _ _ h]
      · simp only [indentLoop, Bool.false_eq_true, if_false, hb, hq, ih _ _ h]

theorem stripSpace_lit (l rest : List Char) :
    ∀ (e e1 : Bool), litState e l = some e1 →
      stripSpace true e (l ++ rest) = l ++ stripSpace true e1 rest := by
  induction l with
  | nil => intro e e1 h; simp only [litState, Option.some.injEq] at h; subst h; rfl
  | cons c cs ih =>
    intro e e1 h
    cases e with
    | true =>
      simp only [litState, List.cons_append] at h ⊢
      simp only [stripSpace, if_true, ih _ _ h]
    | false =>
      simp only [litState, List.cons_append] at h ⊢
      split_ifs at h with hb hq
      · simp only [stripSpace, Bool.false_eq_true, if_false, hb, if_true, ih _ _ h]
      · simp only [stripSpace, Bool.false_eq_true, if_false, hb, hq, ih _ _ h]

theorem indentLoop_string (U : List Char) (d : Nat) (s : String) (rest : List Char) :
    indentLoop U false d false false (encodeString s ++ rest)
      = encodeString s ++ indentLoop U false d false false rest := by
  have hq : isSpace '"' = false := by decide
  rw [encodeString_append, encodeString_append]
  simp only [indentLoop, hq, Bool.false_eq_true, if_false]
  simp only [show ¬ (('"' : Char) = '}' ∨ ('"' : Char) = ']') by decide,
    show ¬ (('"' : Char) = '{' ∨ ('"' : Char) = '[') by decide,
    show ('"' : Char) ≠ ',' by decide, show ('"' : Char) ≠ ':' by decide, if_false, if_true,
    List.nil_append]
  rw [indentLoop_lit U false d _ _ false false (litState_escapeBody s.data)]
  simp only [indentLoop, Bool.false_eq_true, if_false, if_true,
    show ('"' : Char) ≠ '\\' by decide]

theorem stripSpace_string (s : String) (rest : List Char) :
    stripSpace false false (encodeString s ++ rest)
      = encodeString s ++ stripSpace false false rest := by
  have hq : isSpace '"' = false := by decide
  rw [encodeString_append, encodeString_append]
  simp only [stripSpace, hq, Bool.false_eq_true, if_false, if_true]
  rw [stripSpace_lit _ _ false false (litState_escapeBody s.data)]
  simp only [stripSpace, Bool.false_eq_true, if_false, if_true,
    show ('"' : Char) ≠ '\\' by decide]

theorem indentLoop_plain (U : List Char) (d : Nat) (l rest : List Char)
    (h : l.all plainChar = true) :
    indentLoop U false d false false (l ++ rest) = l ++ indentLoop U false d false false rest := by
  induction l with
  | nil => rfl
  | cons c cs ih =>
    simp only [List.all_cons, Bool.and_eq_true] at h
    obtain ⟨hc, hcs⟩ := h
    simp only [plainChar, Bool.and_eq_true, Bool.not_eq_true', bne_iff_ne, ne_eq] at hc
    obtain ⟨⟨⟨⟨⟨⟨⟨h1, h2⟩, h3⟩, h4⟩, h5⟩, h6⟩, h7⟩, h8⟩ := hc
    simp only [List.cons_append, indentLoop, h1, Bool.false_eq_true, if_false, h2, h3, h4, h5,
      h6, h7, h8, or_self, List.nil_append]
    exact congrArg (List.cons c) (ih hcs)

theorem stripSpace_plain (l rest : List Char) (h : l.all plainChar = true) :
    stripSpace false false (l ++ rest) = l ++ stripSpace false false rest := by
  induction l with
  | nil => rfl
  | cons c cs ih =>
    simp only [List.all_cons, Bool.and_eq_true] at h
    obtain ⟨hc, hcs⟩ := h
    simp only [plainChar, Bool.and_eq_true, Bool.not_eq_true', bne_iff_ne, ne_eq] at hc
    obtain ⟨⟨⟨⟨⟨⟨⟨h1, h2⟩, h3⟩, h4⟩, h5⟩, h6⟩, h7⟩, h8⟩ := hc
    simp only [List.cons_append, stripSpace, h1, Bool.false_eq_true, if_false, h2]
    exact congrArg (List.cons c) (ih hcs)

theorem plainChar_of_isDigit (c : Char) (h : isDigit c = true) : plainChar c = true := by
  simp only [isDigit, Bool.and_eq_true, decide_eq_true_eq] at h
  simp only [plainChar, isSpace, Bool.and_eq_true, Bool.not_eq_true', Bool.or_eq_false_iff,
    decide_eq_false_iff_not, bne_iff_ne, ne_eq]
  refine ⟨⟨⟨⟨⟨⟨⟨⟨⟨⟨?_, ?_⟩, ?_⟩, ?_⟩, ?_⟩, ?_⟩, ?_⟩, ?_⟩, ?_⟩, ?_⟩, ?_⟩ <;>
    (intro hc; subst hc; revert h; decide)

theorem encodeInt_plain (v : Int) : (encodeInt v).all plainChar = true := by
  have hd : (natDigits v.natAbs).all plainChar = true := by
    rw [List.all_eq_true]
    intro c hc
    exact plainChar_of_isDigit c (natDigits_all_digits _ c hc)
  unfold encodeInt
  split_ifs
  · simp only [List.all_cons, hd, Bool.and_true]; decide
  · exact hd

/-! ### The pretty output, token by token -/

theorem indentLoop_colon (U : List Char) (d : Nat) (rest : List Char) :
    indentLoop U false d false false (':' :: rest)
      = ':' :: ' ' :: indentLoop U false d false false rest := by
  simp [indentLoop, isSpace]

theorem indentLoop_comma (U : List Char) (d : Nat) (rest : List Char) :
    indentLoop U false d false false (',' :: rest)
      = ',' :: (appendNewline U d ++ indentLoop U false d false false rest) := by
  simp [indentLoop, isSpace]

theorem indentLoop_open (U : List Char) (d : Nat) (rest : List Char) :
    indentLoop U false d false false ('{' :: rest) = '{' :: indentLoop U true d false false rest := by
  simp [indentLoop, isSpace]

theorem indentLoop_open_delayed (U : List Char) (d : Nat) (rest : List Char) :
    indentLoop U true d false false ('{' :: rest)
      = appendNewline U (d + 1) ++ indentLoop U false (d + 1) false false ('{' :: rest) := by
  simp [indentLoop, isSpace]

theorem indentLoop_bracket (U : List Char) (d : Nat) (rest : List Char) :
    indentLoop U false d false false ('[' :: rest) = '[' :: indentLoop U true d false false rest := by
  simp [indentLoop, isSpace]

theorem indentLoop_close (U : List Char) (d : Nat) (c : Char) (hc : c = '}' ∨ c = ']')
    (rest : List Char) :
    indentLoop U false (d + 1) false false (c :: rest)
      = appendNewline U d ++ c :: indentLoop U false d false false rest := by
  rcases hc with rfl | rfl <;> simp [indentLoop, isSpace]

theorem indentLoop_string_delayed (U : List Char) (d : Nat) (s : String) (rest : List Char) :
    indentLoop U true d false false (encodeString s ++ rest)
      = appendNewline U (d + 1) ++ (encodeString s ++ indentLoop U false (d + 1) false false rest) := by
  have h := indentLoop_string U (d + 1) s rest
  rw [encodeString_append] at h ⊢
  rw [← h]
  simp [indentLoop, isSpace]

theorem indentLoop_int (U : List Char) (d : Nat) (v : Int) (rest : List Char) :
    indentLoop U false d false false (encodeInt v ++ rest)
      = encodeInt v ++ indentLoop U false d false false rest :=
  indentLoop_plain U d _ rest (encodeInt_plain v)

theorem key_no (X : List Char) : "\"no\":".data ++ X = encodeString "no" ++ ':' :: X := rfl

theorem key_name (X : List Char) : "\"name\":".data ++ X = encodeString "name" ++ ':' :: X := rfl

theorem key_score (X : List Char) : "\"score\":".data ++ X = encodeString "score" ++ ':' :: X := rfl

theorem key_hobby (X : List Char) : "\"hobby\":".data ++ X = encodeString "hobby" ++ ':' :: X := rfl

theorem layoutStudent_eq (m s c : List Char) (r : student) :
    layoutStudent m s c r
      = '{' :: (m ++ (encodeString "no" ++ ':' :: (s ++ (encodeInt r.No
        ++ ',' :: (m ++ (encodeString "name" ++ ':' :: (s ++ (encodeString r.Name
        ++ ',' :: (m ++ (encodeString "score" ++ ':' :: (s ++ (encodeInt r.Score
        ++ ',' :: (m ++ (encodeString "hobby" ++ ':' :: (s ++ (encodeString r.Hobby
        ++ (c ++ ['}']))))))))))))))))) := by
  unfold layoutStudent
  rw [key_no, key_name, key_score, key_hobby]

theorem indentLoop_student (U : List Char) (d : Nat) (r : student) (rest : List Char) :
    indentLoop U false d false false (layoutStudent [] [] [] r ++ rest)
      = layoutStudent (appendNewline U (d + 1)) [' '] (appendNewline U d) r
          ++ indentLoop U false d false false rest := by
  simp only [layoutStudent_eq, List.nil_append, List.cons_append, List.append_assoc]
  rw [indentLoop_open, indentLoop_string_delayed, indentLoop_colon, indentLoop_int,
    indentLoop_comma, indentLoop_string, indentLoop_colon, indentLoop_string,
    indentLoop_comma, indentLoop_string, indentLoop_colon, indentLoop_int,
    indentLoop_comma, indentLoop_string, indentLoop_colon, indentLoop_string,
    indentLoop_close U d '}' (Or.inl rfl)]

theorem indentLoop_tail (U : List Char) (d : Nat) (rest : List Char) (rs : List student) :
    indentLoop U false (d + 1) false false (layoutTail [] [] [] [] rs ++ ']' :: rest)
      = layoutTail (appendNewline U (d + 1)) (appendNewline U (d + 2)) [' ']
            (appendNewline U (d + 1)) rs
          ++ (appendNewline U d ++ ']' :: indentLoop U false d false false rest) := by
  induction rs with
  | nil =>
    simp only [layoutTail, List.nil_append]
    exact indentLoop_close U d ']' (Or.inr rfl) rest
  | cons r rs ih =>
    simp only [layoutTail, List.nil_append, List.cons_append, List.append_assoc]
    rw [indentLoop_comma, indentLoop_student, ih]

theorem layoutStudent_head (memberWs sep closeWs : List Char) (r : student) (X : List Char) :
    layoutStudent memberWs sep closeWs r ++ X
      = '{' :: ((layoutStudent memberWs sep closeWs r).drop 1 ++ X) := rfl

theorem indentLoop_aggregate (U : List Char) (record : Option (List student)) :
    indentLoop U false 0 false false (layoutAggregate [] [] [] [] [] record)
      = layoutAggregate (appendNewline U 1) (appendNewline U 2) [' '] (appendNewline U 1)
          (appendNewline U 0) record := by
  cases record with
  | none => simp [layoutAggregate, indentLoop, isSpace]
  | some rs =>
    cases rs with
    | nil => simp [layoutAggregate, indentLoop, isSpace]
    | cons r rs =>
      simp only [layoutAggregate, List.nil_append]
      rw [indentLoop_bracket, layoutStudent_head, indentLoop_open_delayed, ← layoutStudent_head,
        indentLoop_student, indentLoop_tail U 0 [] rs]
      simp [indentLoop]

theorem appendNewline_lineBreak (d : Nat) : appendNewline "    ".data d = lineBreak d := by
  simp only [appendNewline, lineBreak, List.cons.injEq, true_and]
  induction d with
  | zero => rfl
  | succ n ih =>
    rw [List.replicate_succ, List.flatten_cons, ih, show 4 * (n + 1) = 4 * n + 4 by ring]
    simp [List.replicate_succ]

/-! ### Whitespace outside string literals -/

theorem stripSpace_ws (ws rest : List Char) (h : allSpace ws = true) :
    stripSpace false false (ws ++ rest) = stripSpace false false rest := by
  induction ws with
  | nil => rfl
  | cons c cs ih =>
    simp only [allSpace, List.all_cons, Bool.and_eq_true] at h
    simp only [List.cons_append, stripSpace, h.1, if_true]
    exact ih (by simpa [allSpace] using h.2)

theorem stripSpace_punct (c : Char) (rest : List Char) (h1 : isSpace c = false) (h2 : c ≠ '"') :
    stripSpace false false (c :: rest) = c :: stripSpace false false rest := by
  simp [stripSpace, h1, h2]

theorem stripSpace_int (v : Int) (rest : List Char) :
    stripSpace false false (encodeInt v ++ rest) = encodeInt v ++ stripSpace false false rest :=
  stripSpace_plain _ rest (encodeInt_plain v)

theorem stripSpace_student (memberWs sep closeWs : List Char) (r : student) (rest : List Char)
    (hm : allSpace memberWs = true) (hs : allSpace sep = true) (hc : allSpace closeWs = true) :
    stripSpace false false (layoutStudent memberWs sep closeWs r ++ rest)
      = layoutStudent [] [] [] r ++ stripSpace false false rest := by
  have p1 := fun X => stripSpace_punct '{' X (by decide) (by decide)
  have p2 := fun X => stripSpace_punct ':' X (by decide) (by decide)
  have p3 := fun X => stripSpace_punct ',' X (by decide) (by decide)
  have p4 := fun X => stripSpace_punct '}' X (by decide) (by decide)
  simp only [layoutStudent_eq, List.nil_append, List.cons_append, List.append_assoc]
  simp only [p1, p2, p3, p4, stripSpace_ws _ _ hm, stripSpace_ws _ _ hs, stripSpace_ws _ _ hc,
    stripSpace_string, stripSpace_int]

theorem stripSpace_tail (elemWs memberWs sep closeWs rest : List Char)
    (he : allSpace elemWs = true) (hm : allSpace memberWs = true) (hs : allSpace sep = true)
    (hc : allSpace closeWs = true) (rs : List student) :
    stripSpace false false (layoutTail elemWs memberWs sep closeWs rs ++ rest)
      = layoutTail [] [] [] [] rs ++ stripSpace false false rest := by
  induction rs with
  | nil => rfl
  | cons r rs ih =>
    simp only [layoutTail, List.nil_append, List.cons_append, List.append_assoc]
    rw [stripSpace_punct ',' _ (by decide) (by decide), stripSpace_ws _ _ he,
      stripSpace_student _ _ _ _ _ hm hs hc, ih]

theorem stripSpace_aggregate (elemWs memberWs sep closeWs endWs : List Char)
    (he : allSpace elemWs = true) (hm : allSpace memberWs = true) (hs : allSpace sep = true)
    (hc : allSpace closeWs = true) (hend : allSpace endWs = true)
    (record : Option (List student)) :
    stripSpace false false (layoutAggregate elemWs memberWs sep closeWs endWs record)
      = layoutAggregate [] [] [] [] [] record := by
  cases record with
  | none => simp [layoutAggregate, stripSpace, isSpace]
  | some rs =>
    cases rs with
    | nil => simp [layoutAggregate, stripSpace, isSpace]
    | cons r rs =>
      simp only [layoutAggregate, List.nil_append]
      rw [stripSpace_punct '[' _ (by decide) (by decide), stripSpace_ws _ _ he,
        stripSpace_student _ _ _ _ _ hm hs hc, stripSpace_tail _ _ _ _ _ he hm hs hc,
        stripSpace_ws _ _ hend, stripSpace_punct ']' _ (by decide) (by decide)]
      simp [stripSpace]

theorem allSpace_lineBreak (d : Nat) : allSpace (lineBreak d) = true := by
  simp [allSpace, lineBreak, isSpace]

/-! ### `filepath.Ext` meets its description -/

theorem lastElement_of_not_mem (s : List Char) (h : '/' ∉ s) : lastElement s = s := by
  induction s with
  | nil => rfl
  | cons c cs ih =>
    simp only [List.mem_cons, not_or] at h
    have hc : c ≠ '/' := fun e => h.1 e.symm
    simp [lastElement, h.2, hc]

theorem lastElement_append_sep (a s : List Char) (h : '/' ∉ s) :
    lastElement (a ++ '/' :: s) = s := by
  induction a with
  | nil => simp [lastElement, h]
  | cons c cs ih => simp [lastElement, ih]

theorem lastElement_append (a s : List Char) (h : '/' ∉ s) :
    lastElement (a ++ s) = lastElement a ++ s := by
  induction a with
  | nil => simp [lastElement, lastElement_of_not_mem s h]
  | cons c cs ih =>
    by_cases hcs : '/' ∈ cs
    · simp [lastElement, hcs, ih]
    · by_cases hc : c = '/'
      · simp [lastElement, hcs, h, hc]
      · simp [lastElement, hcs, h, hc]

theorem fromLastDot_of_not_mem (s : List Char) (h : '.' ∉ s) : fromLastDot s = [] := by
  induction s with
  | nil => rfl
  | cons c cs ih =>
    simp only [List.mem_cons, not_or] at h
    have hc : c ≠ '.' := fun e => h.1 e.symm
    simp [fromLastDot, h.2, hc]

theorem fromLastDot_append_dot (a s : List Char) (h : '.' ∉ s) :
    fromLastDot (a ++ '.' :: s) = '.' :: s := by
  induction a with
  | nil => simp [fromLastDot, h]
  | cons c cs ih => simp [fromLastDot, ih]

theorem extLoop_eq (before : List Char) : ∀ (suffix : List Char), '/' ∉ suffix → '.' ∉ suffix →
    extLoop before.reverse suffix = fromLastDot (lastElement (before ++ suffix)) := by
  induction before using List.reverseRecOn with
  | nil =>
    intro suffix h1 h2
    simp [extLoop, lastElement_of_not_mem suffix h1, fromLastDot_of_not_mem suffix h2]
  | append_singleton b c ih =>
    intro suffix h1 h2
    simp only [List.reverse_append, List.reverse_cons, List.reverse_nil, List.nil_append,
      List.singleton_append, extLoop, List.append_assoc]
    by_cases hs : c = '/'
    · subst hs
      simp [lastElement_append_sep b suffix h1, fromLastDot_of_not_mem suffix h2]
    · by_cases hd : c = '.'
      · subst hd
        have h3 : '/' ∉ '.' :: suffix := by
          simp only [List.mem_cons, not_or]; exact ⟨by decide, h1⟩
        simp only [hs, if_false, if_true]
        rw [lastElement_append b _ h3, fromLastDot_append_dot _ _ h2]
      · have h3 : '/' ∉ c :: suffix := by
          simp only [List.mem_cons, not_or]; exact ⟨fun e => hs e.symm, h1⟩
        have h4 : '.' ∉ c :: suffix := by
          simp only [List.mem_cons, not_or]; exact ⟨fun e => hd e.symm, h2⟩
        simp only [hs, hd, if_false]
        exact ih (c :: suffix) h3 h4

theorem Ext_eq_extension (path : String) : Ext path = extension path := by
  have := extLoop_eq path.data [] (by simp) (by simp)
  simp only [List.append_nil] at this
  simp [Ext, extension, this]

/-! ### The receive loop -/

theorem elems_goAppend (record : Option (List student)) (b : List student) :
    elems (goAppend record b) = elems record ++ b := by
  cases b with
  | nil => simp [goAppend]
  | cons x xs => simp [goAppend, elems]

theorem elems_receiveLoop (batches : List (List student)) :
    ∀ record, elems (receiveLoop batches record) = elems record ++ batches.flatten := by
  induction batches with
  | nil => intro record; simp [receiveLoop]
  | cons b bs ih =>
    intro record
    simp only [receiveLoop, ih, List.flatten_cons]
    by_cases hb : b.length > 0
    · simp [hb, elems_goAppend]
    · have : b = [] := by
        cases b with
        | nil => rfl
        | cons x xs => simp at hb
      simp [this]

theorem elems_aggregate (batches : List (List student)) :
    elems (aggregate batches) = batches.flatten := by
  rw [aggregate, elems_receiveLoop]
  simp [elems]

/-! ### The two output forms -/

theorem Marshal_eq_compactLayout (record : Option (List student)) :
    Marshal record = compactLayout record := by
  simp [Marshal, compactLayout, marshalChars_layout]

theorem MarshalIndent_eq_prettyLayout (record : Option (List student)) :
    MarshalIndent record = prettyLayout record := by
  unfold MarshalIndent prettyLayout
  rw [marshalChars_layout, indentLoop_aggregate, appendNewline_lineBreak,
    appendNewline_lineBreak, appendNewline_lineBreak]

theorem parseJson_Marshal (record : Option (List student)) :
    parseJson (Marshal record) = some (aggregateJson record) := by
  rw [Marshal_eq_compactLayout]
  exact parseJson_layout [] [] [] [] [] rfl rfl rfl rfl rfl record

theorem parseJson_MarshalIndent (record : Option (List student)) :
    parseJson (MarshalIndent record) = some (aggregateJson record) := by
  rw [MarshalIndent_eq_prettyLayout]
  exact parseJson_layout _ _ [' '] _ _ (allSpace_lineBreak 1) (allSpace_lineBreak 2) rfl
    (allSpace_lineBreak 1) (allSpace_lineBreak 0) record

theorem stripSpace_MarshalIndent (record : Option (List student)) :
    stripSpace false false (MarshalIndent record).data = (Marshal record).data := by
  rw [MarshalIndent_eq_prettyLayout, Marshal_eq_compactLayout]
  exact stripSpace_aggregate _ _ [' '] _ _ (allSpace_lineBreak 1) (allSpace_lineBreak 2) rfl
    (allSpace_lineBreak 1) (allSpace_lineBreak 0) record

theorem stripSpace_Marshal (record : Option (List student)) :
    stripSpace false false (Marshal record).data = (Marshal record).data := by
  rw [Marshal_eq_compactLayout]
  exact stripSpace_aggregate [] [] [] [] [] rfl rfl rfl rfl rfl record

/-! ### `main` when standard error is writable -/

theorem check_exits (msg : String) : check (some msg) true
    = ([Event.stderr ("error: " ++ msg ++ "\n")], Flow.exit 1) := rfl

theorem check_nil (ok : Bool) : check none ok = ([], Flow.ret ()) := rfl

theorem checkIfFileValid_trace (stat : String → StatOutcome) (p : String) :
    ∀ e ∈ (checkIfFileValid stat p).1, e = Event.stat p := by
  intro e he
  unfold checkIfFileValid at he
  by_cases hext : Ext p = ".csv"
  · by_cases hstat : ((stat p).errNonNil && (stat p).isNotExist) = true
    · simpa [hext, hstat] using he
    · simpa [hext, hstat] using he
  · simp [hext] at he

theorem validateLoop_stops (stat : String → StatOutcome) (stderrOk : Nat → Bool)
    (hok : ∀ k, stderrOk k = true) (paths : List String) :
    ∀ k, (∃ p ∈ paths, (checkIfFileValid stat p).2.2 ≠ none) →
      (validateLoop stat stderrOk paths k).2 = Flow.exit 1
      ∧ ∀ e ∈ (validateLoop stat stderrOk paths k).1,
          (∃ p, e = Event.stat p) ∨ (∃ t, e = Event.stderr t) := by
  induction paths with
  | nil => intro k h; obtain ⟨p, hp, _⟩ := h; simp at hp
  | cons q qs ih =>
    intro k h
    have htr := checkIfFileValid_trace stat q
    cases herr : (checkIfFileValid stat q).2.2 with
    | some msg =>
      simp only [validateLoop, herr, hok, check_exits]
      refine ⟨trivial, ?_⟩
      intro e he
      rcases List.mem_append.mp he with h1 | h1
      · exact Or.inl ⟨q, htr e h1⟩
      · simp only [List.mem_singleton] at h1
        exact Or.inr ⟨_, h1⟩
    | none =>
      have hrest : ∃ p ∈ qs, (checkIfFileValid stat p).2.2 ≠ none := by
        obtain ⟨p, hp, hne⟩ := h
        rcases List.mem_cons.mp hp with rfl | hp'
        · exact absurd herr hne
        · exact ⟨p, hp', hne⟩
      obtain ⟨ih1, ih2⟩ := ih k hrest
      simp only [validateLoop, herr, check_nil, Option.isSome_none, Bool.false_eq_true, if_false,
        List.append_nil]
      refine ⟨ih1, ?_⟩
      intro e he
      rcases List.mem_append.mp he with h1 | h1
      · exact Or.inl ⟨q, htr e h1⟩
      · exact ih2 e h1

theorem main_stops_at_invalid_path (osArgs : List String) (stat : String → StatOutcome)
    (stderrOk : Nat → Bool) (paths : List String) (pretty : Bool)
    (hargs : getArgs osArgs = ([], Flow.ret ({ filePaths := paths, pretty := pretty }, none)))
    (hok : ∀ k, stderrOk k = true)
    (hbad : ∃ p ∈ paths, (checkIfFileValid stat p).2.2 ≠ none) :
    (main osArgs stat stderrOk).2 = MainFlow.exited 1
      ∧ ∀ e ∈ (main osArgs stat stderrOk).1,
          (∃ p, e = Event.stat p) ∨ (∃ t, e = Event.stderr t) := by
  obtain ⟨h1, h2⟩ := validateLoop_stops stat stderrOk hok paths 0 hbad
  unfold main
  rw [hargs]
  simp only [check_nil, Option.isSome_none, Bool.false_eq_true, if_false, List.nil_append]
  cases hv : validateLoop stat stderrOk paths 0 with
  | mk tr fl =>
    rw [hv] at h1 h2
    simp only at h1 h2
    subst h1
    exact ⟨rfl, h2⟩

/-! ### When the aggregate is the nil slice -/

theorem receiveLoop_eq (batches : List (List student)) :
    ∀ record, receiveLoop batches record
      = if batches.flatten = [] then record else some (elems record ++ batches.flatten) := by
  induction batches with
  | nil => intro record; simp [receiveLoop]
  | cons b bs ih =>
    intro record
    cases b with
    | nil => simp [receiveLoop, ih]
    | cons x xs =>
      simp only [receiveLoop, ih, List.length_cons, gt_iff_lt, Nat.zero_lt_succ, if_true,
        goAppend, elems, Option.getD_some, List.flatten_cons]
      by_cases hbs : bs.flatten = []
      · simp [hbs]
      · simp [hbs]

theorem aggregate_of_no_record (batches : List (List student)) (h : batches.flatten = []) :
    aggregate batches = none := by
  simp [aggregate, receiveLoop_eq, h]

theorem aggregate_of_records (batches : List (List student)) (h : batches.flatten ≠ []) :
    aggregate batches = some batches.flatten := by
  simp [aggregate, receiveLoop_eq, h, elems]

theorem outputBytes_of_no_record (batches : List (List student)) (pretty : Bool)
    (h : batches.flatten = []) : outputBytes batches pretty = "null" := by
  cases pretty <;> simp [outputBytes, aggregate_of_no_record batches h] <;> rfl

theorem outputBytes_of_records (batches : List (List student)) (pretty : Bool)
    (h : batches.flatten ≠ []) :
    parseJson (outputBytes batches pretty) = some (Json.arr (batches.flatten.map studentJson)) := by
  cases pretty
  · simp only [outputBytes, Bool.false_eq_true, if_false, parseJson_Marshal,
      aggregate_of_records batches h, aggregateJson]
  · simp only [outputBytes, if_true, parseJson_MarshalIndent, aggregate_of_records batches h,
      aggregateJson]

/-! ### `processCsvFile` on a file that opens and decodes -/

theorem processCsvFile_ok (filePath content : String)
    (decode : Option String → List student × Option String) (batch : List student)
    (ok1 ok2 : Bool) (hdecode : decode (some content) = (batch, none)) :
    processCsvFile filePath (Except.ok content) decode ok1 ok2
      = ([Event.openFile filePath, Event.unmarshalFile filePath, Event.send batch,
          Event.closeFile filePath, Event.wgDone], Flow.ret ()) := by
  simp [processCsvFile, check, hdecode]

theorem UnmarshalFile_example :
    UnmarshalFile (some "No,Name,Score,Hobby\n1,name,0,hobby\n")
      = ([{ No := 1, Name := "name", Score := 0, Hobby := "hobby" }], none) := by
  decide

/-! ## The claims -/

/-- Claim C1. For every finite sequence of batches that `writeJsonFile`
receives before the channel is closed (possibly none, possibly empty ones),
the aggregate it serializes is the concatenation of the batches in arrival
order: its length is the sum of the batch lengths, every batch stands in it
contiguously between the batches received before and after it, and the bytes
handed to `WriteFile` are the encoding of exactly this aggregate. -/
theorem writeJsonFile_aggregate_concat (batches : List (List student)) :
    elems (aggregate batches) = batches.flatten
      ∧ (elems (aggregate batches)).length = (batches.map List.length).sum
      ∧ (∀ (earlier : List (List student)) (b : List student) (later : List (List student)),
          elems (aggregate (earlier ++ b :: later)) = earlier.flatten ++ b ++ later.flatten)
      ∧ (∀ (jsonPath : String) (pretty : Bool),
          writeJsonFile jsonPath batches pretty
            = [Event.stdout "Writing JSON file...\n",
               Event.writeFile jsonPath
                 (if pretty then MarshalIndent (aggregate batches)
                  else Marshal (aggregate batches)) 420,
               Event.stdout "Completed!\n",
               Event.doneSend true]) := by
  refine ⟨elems_aggregate batches, ?_, ?_, ?_⟩
  · rw [elems_aggregate, List.length_flatten]
  · intro earlier b later
    rw [elems_aggregate]
    simp
  · intro jsonPath pretty
    rfl

/-- Claim C2, at the input where the code departs from it. When the channel
is closed without any record having arrived (no batch at all, or only empty
batches), `writeJsonFile` writes the four bytes `null`, in compact and in
pretty mode alike; they read back as the JSON value null, not as an array.
With the single record of the test the compact bytes are the ones the claim
gives. -/
theorem writeJsonFile_without_records_writes_null :
    writeJsonFile "students.json" [] false
        = [Event.stdout "Writing JSON file...\n",
           Event.writeFile "students.json" "null" 420,
           Event.stdout "Completed!\n",
           Event.doneSend true]
      ∧ writeJsonFile "students.json" [[], []] true
        = [Event.stdout "Writing JSON file...\n",
           Event.writeFile "students.json" "null" 420,
           Event.stdout "Completed!\n",
           Event.doneSend true]
      ∧ parseJson "null" = some Json.null
      ∧ outputBytes [[{ No := 1, Name := "name", Score := 0, Hobby := "hobby" }]] false
        = "[\x7b\"no\":1,\"name\":\"name\",\"score\":0,\"hobby\":\"hobby\"\x7d]" := by
  refine ⟨by decide, by decide, by rfl, by decide⟩

/-- Claim C4 is false as stated: for the path `a.csv` and a stat that fails
with an error other than not-exist, `checkIfFileValid` returns `(true, nil)`
although the stat did not succeed. -/
theorem checkIfFileValid_accepts_failed_stat :
    checkIfFileValid (fun _ => StatOutcome.otherError) "a.csv"
        = ([Event.stat "a.csv"], (true, none))
      ∧ StatOutcome.otherError ≠ StatOutcome.success := by
  refine ⟨by decide, by decide⟩

/-- Claim C4, amended. For every path, `checkIfFileValid` returns false
together with a non-nil error whenever the stat reports that the file does
not exist, and it returns `(true, nil)` exactly when the extension of the path
is `.csv` and the stat did not report a not-exist error (it succeeded, or it
failed with another error). -/
theorem checkIfFileValid_accepts_iff (stat : String → StatOutcome) (filePath : String) :
    (stat filePath = StatOutcome.notExistError →
        (checkIfFileValid stat filePath).2.1 = false
          ∧ (checkIfFileValid stat filePath).2.2 ≠ none)
      ∧ ((checkIfFileValid stat filePath).2 = (true, none)
          ↔ extension filePath = ".csv" ∧ stat filePath ≠ StatOutcome.notExistError) := by
  rw [← Ext_eq_extension]
  unfold checkIfFileValid
  by_cases hext : Ext filePath = ".csv"
  · cases hstat : stat filePath <;>
      simp [hext, StatOutcome.errNonNil, StatOutcome.isNotExist]
  · simp [hext]

/-- Claim C4, amended, at concrete inputs: the missing file `nowhere/test.csv`
is rejected with an error, and `a.csv` under a stat that fails otherwise is
accepted. -/
theorem checkIfFileValid_accepts_iff_witness :
    ((checkIfFileValid (fun _ => StatOutcome.notExistError) "nowhere/test.csv").2.1 = false
        ∧ (checkIfFileValid (fun _ => StatOutcome.notExistError) "nowhere/test.csv").2.2 ≠ none)
      ∧ (checkIfFileValid (fun _ => StatOutcome.otherError) "a.csv").2 = (true, none) :=
  ⟨(checkIfFileValid_accepts_iff (fun _ => StatOutcome.notExistError) "nowhere/test.csv").1 rfl,
   (checkIfFileValid_accepts_iff (fun _ => StatOutcome.otherError) "a.csv").2.mpr
     ⟨by decide, by decide⟩⟩

/-- Claim C5. For every path whose extension (the suffix starting at the last
dot of the last path element, empty if there is none) is not exactly `.csv`,
`checkIfFileValid` returns false with the not-CSV error whatever the stat
would answer, and its trace is empty: `os.Stat` is not called. -/
theorem checkIfFileValid_rejects_other_extension (stat : String → StatOutcome)
    (filePath : String) (hext : extension filePath ≠ ".csv") :
    checkIfFileValid stat filePath
      = ([], (false, some ("file " ++ filePath ++ " is not CSV"))) := by
  rw [← Ext_eq_extension] at hext
  simp [checkIfFileValid, hext]

/-- Claim C5 at the paths the claim names: `test.txt`, a path without
extension, and `a.CSV`, the last one with a file that exists. -/
theorem checkIfFileValid_rejects_other_extension_witness :
    checkIfFileValid (fun _ => StatOutcome.notExistError) "test.txt"
        = ([], (false, some ("file " ++ "test.txt" ++ " is not CSV")))
      ∧ checkIfFileValid (fun _ => StatOutcome.success) "data.d/students"
        = ([], (false, some ("file " ++ "data.d/students" ++ " is not CSV")))
      ∧ checkIfFileValid (fun _ => StatOutcome.success) "a.CSV"
        = ([], (false, some ("file " ++ "a.CSV" ++ " is not CSV"))) :=
  ⟨checkIfFileValid_rejects_other_extension _ "test.txt" (by decide),
   checkIfFileValid_rejects_other_extension _ "data.d/students" (by decide),
   checkIfFileValid_rejects_other_extension _ "a.CSV" (by decide)⟩

/-- Claim C6, at the input where the code departs from it. With the program
name followed only by the `--pretty` flag, `os.Args` has two entries, the
length test passes, and `getArgs` returns a nil error with no file path and
`pretty` set; with the program name alone it returns the error and the zero
`args` value, without any effect. -/
theorem getArgs_flag_only_is_accepted (program : String) :
    getArgs [program, "--pretty"]
        = ([], Flow.ret ({ filePaths := [], pretty := true }, none))
      ∧ getArgs [program]
        = ([], Flow.ret ({ filePaths := [], pretty := false },
            some "A filepath argument is required")) := by
  constructor <;> rfl

/-- Claim C7, at the input where the code departs from it. With the single
path `test.txt` and a standard error that cannot be written, `check` returns
after the failed validation, and `main` goes on to start a `processCsvFile`
goroutine for the rejected path and the `writeJsonFile` goroutine. -/
theorem main_continues_after_failed_validation :
    main ["./csv2json", "test.txt"] (fun _ => StatOutcome.notExistError) (fun _ => false)
      = ([Event.stderr "error: file test.txt is not CSV\n",
          Event.wgAdd 1,
          Event.goProcessCsvFile "test.txt",
          Event.goWriteJsonFile "students.json" false],
         MainFlow.launched ["test.txt"] false) := by
  decide

/-- Claim C8. For every file that opens and that the Record Decoder decodes
without error, `processCsvFile` sends exactly one value on the channel, the
decoder's record sequence, then closes the file and signals the wait group
once, after the send, and returns; for the content of the test the batch sent
is the single record (1, name, 0, hobby). -/
theorem processCsvFile_sends_batch_then_signals (filePath content : String)
    (decode : Option String → List student × Option String) (batch : List student)
    (ok1 ok2 : Bool) (hdecode : decode (some content) = (batch, none)) :
    processCsvFile filePath (Except.ok content) decode ok1 ok2
        = ([Event.openFile filePath, Event.unmarshalFile filePath, Event.send batch,
            Event.closeFile filePath, Event.wgDone], Flow.ret ())
      ∧ processCsvFile filePath (Except.ok "No,Name,Score,Hobby\n1,name,0,hobby\n")
          UnmarshalFile ok1 ok2
        = ([Event.openFile filePath, Event.unmarshalFile filePath,
            Event.send [{ No := 1, Name := "name", Score := 0, Hobby := "hobby" }],
            Event.closeFile filePath, Event.wgDone], Flow.ret ()) :=
  ⟨processCsvFile_ok filePath content decode batch ok1 ok2 hdecode,
   processCsvFile_ok filePath _ UnmarshalFile _ ok1 ok2 UnmarshalFile_example⟩

/-- Claim C8 on a file of two rows, decoded by the Record Decoder of the
model: the batch sent holds both records in file order. -/
theorem processCsvFile_sends_batch_then_signals_witness :
    processCsvFile "in.csv" (Except.ok "No,Name,Score,Hobby\n1,name,0,hobby\n2,b,-7,\n")
        UnmarshalFile true true
      = ([Event.openFile "in.csv", Event.unmarshalFile "in.csv",
          Event.send [{ No := 1, Name := "name", Score := 0, Hobby := "hobby" },
                      { No := 2, Name := "b", Score := -7, Hobby := "" }],
          Event.closeFile "in.csv", Event.wgDone], Flow.ret ()) :=
  (processCsvFile_sends_batch_then_signals "in.csv"
    "No,Name,Score,Hobby\n1,name,0,hobby\n2,b,-7,\n" UnmarshalFile
    [{ No := 1, Name := "name", Score := 0, Hobby := "hobby" },
     { No := 2, Name := "b", Score := -7, Hobby := "" }] true true (by decide)).1

/-- Claim C9. For every sequence of received batches, the bytes written with
`pretty = true` and the bytes written with `pretty = false` read back as the
same JSON value, the value of the aggregate; removing the whitespace that
stands outside string literals from the pretty bytes gives the compact bytes,
which themselves hold no such whitespace; and the pretty bytes are the layout
with four spaces per nesting level. -/
theorem pretty_and_compact_same_value (batches : List (List student)) :
    parseJson (outputBytes batches true) = some (aggregateJson (aggregate batches))
      ∧ parseJson (outputBytes batches false) = some (aggregateJson (aggregate batches))
      ∧ stripSpace false false (outputBytes batches true).data = (outputBytes batches false).data
      ∧ stripSpace false false (outputBytes batches false).data
          = (outputBytes batches false).data
      ∧ outputBytes batches true = prettyLayout (aggregate batches)
      ∧ outputBytes batches false = compactLayout (aggregate batches) := by
  simp only [outputBytes, if_true, Bool.false_eq_true, if_false]
  exact ⟨parseJson_MarshalIndent _, parseJson_Marshal _, stripSpace_MarshalIndent _,
    stripSpace_Marshal _, MarshalIndent_eq_prettyLayout _, Marshal_eq_compactLayout _⟩

/-- Claim C10, at the input where the code departs from it. For every
non-nil error, when the write of the message to standard error fails, `check`
returns to its caller and the process does not exit. -/
theorem check_returns_when_stderr_fails (msg : String) :
    check (some msg) false = ([Event.stderr ("error: " ++ msg ++ "\n")], Flow.ret ()) := by
  rfl

end Csv2Json
